import Mathlib

/-!
Verification development for the storj object-storage core.

Shallow embedding conventions:
- Go strings (node ids, paths, keys) are modelled as lists of characters
  (`BStr`); the lexicographic order on them mirrors raw byte order, since
  UTF-8 encoding preserves codepoint order.
- Goroutine fan-out is modelled by an explicit outcome function from the
  goroutine index to its result; channel collection order does not affect
  the data collected, so the fold over outcomes is adequate.
- Fallible Go functions are modelled with `Except` / `Option`.
- Components whose source is not part of this tree (the infectious
  Reed-Solomon codec, the sync2 throttle, the pointerdb List service and
  the path encryption layer) are modelled from the specification text;
  each such definition carries a doc comment saying so.
-/

namespace Spec2Proof

instance {ε α : Type} [DecidableEq ε] [DecidableEq α] : DecidableEq (Except ε α) := fun x y =>
  match x, y with
  | .error a, .error b =>
    if h : a = b then .isTrue (by rw [h]) else .isFalse (fun hh => h (by injection hh))
  | .ok a, .ok b =>
    if h : a = b then .isTrue (by rw [h]) else .isFalse (fun hh => h (by injection hh))
  | .error _, .ok _ => .isFalse (fun hh => by injection hh)
  | .ok _, .error _ => .isFalse (fun hh => by injection hh)

/-- Byte strings: Go string values (node ids, paths, keys). -/
abbrev BStr := List Char

/-- Strict lexicographic order on byte strings (raw byte order of the
UTF-8 encoding, which coincides with codepoint order). -/
def lexLt : BStr → BStr → Bool
  | [], [] => false
  | [], _ :: _ => true
  | _ :: _, [] => false
  | a :: as, b :: bs => if a < b then true else if b < a then false else lexLt as bs

/-- Non-strict order used by sort.Strings. -/
def lexLe (a b : BStr) : Bool := !(lexLt b a)

/-- The non-strict order as a relation. -/
def LexLe (a b : BStr) : Prop := lexLe a b = true

instance : DecidableRel LexLe := fun a b => inferInstanceAs (Decidable (lexLe a b = true))

/-- Indexed view of a list, indices starting at `i0` (Go range with index). -/
def withIdx : Nat → List α → List (Nat × α)
  | _, [] => []
  | i, x :: xs => (i, x) :: withIdx (i + 1) xs

/-- Occurrences of a byte string in a list of byte strings. -/
def countB (x : BStr) (l : List BStr) : Nat := (l.filter (fun y => y = x)).length

/-! ## pkg/storage/ec/client.go : ecClient -/

/-- pb.Node, reduced to the field the uploader logic inspects: its id. -/
structure PBNode where
  id : BStr
deriving DecidableEq

/-- Go nil-safe getter: `n.GetId()` returns the empty string on a nil node. -/
def getId : Option PBNode → BStr
  | none => []
  | some n => n.id

/-- sort.Strings from the Go standard library: ascending lexicographic
sort (embedded as an insertion sort; any correct ascending sort produces
the same list). -/
def sortStrings (l : List BStr) : List BStr := l.insertionSort LexLe

/-- The adjacent-duplicate loop of ec/client.go `unique`: walking the sorted
ids, report false when two neighbours are equal and non-empty. -/
def adjacentDistinct : List BStr → Bool
  | [] => true
  | [_] => true
  | a :: b :: rest => if b ≠ [] ∧ b = a then false else adjacentDistinct (b :: rest)

/-- ec/client.go `unique`: fewer than two nodes are always unique; otherwise
sort the ids and look for identical non-empty neighbours. -/
def unique (nodes : List (Option PBNode)) : Bool :=
  if nodes.length < 2 then true
  else adjacentDistinct (sortStrings (nodes.map getId))

/-- Result classification for one upload goroutine of ecClient.Put
(dial failure, piece-store Put failure, or the drain-copy result for a nil
node slot). `none` means the goroutine reported no error. -/
inductive GoErr
  | dialErr
  | putErr
deriving DecidableEq

/-- Errors of ecClient.Put. -/
inductive ECPutError
  | badNodeCount
  | duplicateNodes
  | tooFewSuccesses
  | cancelled
deriving DecidableEq

/-- ec/client.go:127-135. `successfulNodes[i] = nodes[i]` exactly when
goroutine `i` reported no error; other slots stay nil. -/
def successfulNodes (nodes : List (Option PBNode)) (outcome : Nat → Option GoErr) :
    List (Option PBNode) :=
  (withIdx 0 nodes).map (fun p => if outcome p.1 = none then p.2 else none)

/-- ec/client.go:133. Number of goroutines that reported no error (note a
nil node slot whose drain copy succeeds is also counted, as in the source). -/
def successfulCount (nodes : List (Option PBNode)) (outcome : Nat → Option GoErr) : Nat :=
  ((List.range nodes.length).filter (fun i => outcome i = none)).length

/-- Nodes whose piece was actually stored: non-nil slots whose Put succeeded. -/
def storedNodes (nodes : List (Option PBNode)) (outcome : Nat → Option GoErr) : List PBNode :=
  (withIdx 0 nodes).filterMap (fun p => if outcome p.1 = none then p.2 else none)

/-- Observable trace of one ecClient.Put call. -/
structure ECPutRun where
  result : Except ECPutError (List (Option PBNode))
  dialed : List PBNode
  stored : List PBNode
  deleted : List PBNode
deriving DecidableEq

/-- ec/client.go:68-154, ecClient.Put. Validation happens before any
goroutine is spawned, so a validation error leaves dialed/stored/deleted
empty. Each goroutine with a non-nil node dials it. The deferred cleanup
block deletes pieces from every non-nil node, but only when the context
is done; it then also overrides the returned error with the cancellation
error. Otherwise the call fails exactly when fewer than the repair
threshold of goroutines succeeded, and no delete is issued. -/
def ecPut (nodes : List (Option PBNode)) (totalCount repairThreshold : Nat)
    (outcome : Nat → Option GoErr) (ctxDone : Bool) : ECPutRun :=
  if nodes.length ≠ totalCount then ⟨.error .badNodeCount, [], [], []⟩
  else if unique nodes = false then ⟨.error .duplicateNodes, [], [], []⟩
  else
    let dialed := nodes.filterMap id
    let stored := storedNodes nodes outcome
    let deleted := if ctxDone then nodes.filterMap id else []
    let base : Except ECPutError (List (Option PBNode)) :=
      if successfulCount nodes outcome < repairThreshold then .error .tooFewSuccesses
      else .ok (successfulNodes nodes outcome)
    let result := if ctxDone then .error .cancelled else base
    ⟨result, dialed, stored, deleted⟩

/-! ## pkg/storage/segments/store.go : segmentStore -/

/-- pb.RemotePiece: piece number plus node id. -/
structure RemotePiece where
  pieceNum : Nat
  nodeId : BStr
deriving DecidableEq

/-- segments/store.go:163-174, makeRemotePointer piece list: skip nil slots,
keep the slot index as the piece number. -/
def makeRemotePieces (nodes : List (Option PBNode)) : List RemotePiece :=
  (withIdx 0 nodes).filterMap (fun p =>
    match p.2 with
    | none => none
    | some n => some ⟨p.1, n.id⟩)

/-- Errors surfaced by segmentStore.Put on the remote-sized path. -/
inductive SegPutError
  | ecFailed (e : ECPutError)
  | pdbPutFailed
deriving DecidableEq

/-- Observable trace of segmentStore.Put for a remote-sized segment. -/
structure SegPutRun where
  result : Except SegPutError (List RemotePiece)
  deletesIssued : List PBNode
deriving DecidableEq

/-- segments/store.go:116-160, remote branch of segmentStore.Put: disperse
via ecClient.Put, build the remote pointer from the successful nodes, then
write the pointer. A failure of the pointer write returns the wrapped error
directly; the function contains no call to ecClient.Delete, so no delete is
issued on any path. -/
def segmentPutRemote (nodes : List (Option PBNode)) (totalCount repairThreshold : Nat)
    (outcome : Nat → Option GoErr) (ctxDone : Bool) (pdbPutFails : Bool) : SegPutRun :=
  let run := ecPut nodes totalCount repairThreshold outcome ctxDone
  match run.result with
  | .error e => ⟨.error (.ecFailed e), []⟩
  | .ok succ =>
    if pdbPutFails then ⟨.error .pdbPutFailed, []⟩
    else ⟨.ok (makeRemotePieces succ), []⟩

/-! ## pkg/datarepair/checker/checker.go -/

/-- pb.InjuredSegment. -/
structure InjuredSegment where
  path : BStr
  lostPieces : List Nat
deriving DecidableEq

/-- checker.go:112-124, offlineNodes: indices of the BulkLookup responses
that came back nil. -/
def offlineIdx (lookups : List (Option PBNode)) : List Nat :=
  (withIdx 0 lookups).filterMap (fun p => if p.2 = none then some p.1 else none)

/-- checker.go:85-103, the per-pointer body of IdentifyInjuredSegments:
resolve the piece node ids via BulkLookup (given here as `lookups`), count
nil results as missing, and enqueue the injured segment exactly when
`numHealthy = total - missing` is below the repair threshold. -/
def checkOnePointer (path : BStr) (lookups : List (Option PBNode))
    (repairThreshold : Int) : Option InjuredSegment :=
  let missing := offlineIdx lookups
  let numHealthy : Int := (lookups.length : Int) - (missing.length : Int)
  if numHealthy < repairThreshold then some ⟨path, missing⟩ else none

/-! ## pkg/node/connection_pool.go -/

/-- node/connection_pool.go Conn: the one-shot dial state of a pool entry.
`dialed` records that the sync.Once body ran, `err` the recorded dial error,
`hasGrpc` whether the grpc pointer was stored (only on success). -/
structure Conn where
  addr : BStr
  dialed : Bool
  err : Option Unit
  hasGrpc : Bool
deriving DecidableEq

/-- connection_pool.go:43, NewConn. -/
def NewConn (addr : BStr) : Conn := ⟨addr, false, none, false⟩

/-- The pool map, as an association list keyed by node id. -/
structure Pool where
  items : List (BStr × Conn)
deriving DecidableEq

def poolFind (pool : Pool) (id : BStr) : Option Conn :=
  (pool.items.find? (fun p => p.1 = id)).map (·.2)

def poolSet (pool : Pool) (id : BStr) (c : Conn) : Pool :=
  if (pool.items.find? (fun p => p.1 = id)).isSome then
    ⟨pool.items.map (fun p => if p.1 = id then (p.1, c) else p)⟩
  else ⟨pool.items ++ [(id, c)]⟩

def poolRemove (pool : Pool) (id : BStr) : Pool :=
  ⟨pool.items.filter (fun p => p.1 ≠ id)⟩

/-- Result of one ConnectionPool.Dial call. `attempted` records whether the
underlying transport DialNode was invoked by this call. -/
structure PoolDialResult where
  pool : Pool
  result : Except Unit Unit
  attempted : Bool
deriving DecidableEq

/-- connection_pool.go:94-125, ConnectionPool.Dial. Look up or create the
entry; the sync.Once body dials only if it has not run for this entry, and
on failure records the error (leaving the grpc pointer nil); afterwards the
recorded error, if any, is returned. `attemptFails` is the outcome the
transport would produce if a fresh dial were attempted by this call. -/
def poolDial (pool : Pool) (id : BStr) (addr : BStr) (attemptFails : Bool) : PoolDialResult :=
  let conn := match poolFind pool id with
    | some c => c
    | none => NewConn addr
  if conn.dialed then
    ⟨poolSet pool id conn,
     match conn.err with
     | some e => .error e
     | none => .ok (),
     false⟩
  else
    let c2 : Conn :=
      if attemptFails then { conn with dialed := true, err := some () }
      else { conn with dialed := true, hasGrpc := true }
    ⟨poolSet pool id c2,
     match c2.err with
     | some e => .error e
     | none => .ok (),
     true⟩

/-- connection_pool.go:77-91, disconnect: a missing entry, or an entry whose
grpc pointer is nil (never-connected or failed dial), is left untouched;
only an entry holding a live connection is removed. -/
def poolDisconnect (pool : Pool) (id : BStr) : Pool :=
  match poolFind pool id with
  | none => pool
  | some c => if c.hasGrpc = false then pool else poolRemove pool id

/-- connection_pool.go:143-147, Init: reset to an empty map. -/
def poolInit : Pool := ⟨[]⟩

/-! ## piecestore psserver retrieveData (Server.retrieveData)

The bandwidth throttle (internal/sync2) is not part of this tree.
Modelled from the spec: producer calls Produce(n); consumer calls
ConsumeOrWait(n) returning min(available, n); Fail(err) unblocks both with
that error, and a Consume after Fail always returns the error. The
allocation-receiving goroutine and the data-sending loop of retrieveData
are embedded as steps of one interleaved transition system, so that every
scheduling of the two loops is covered. -/

/-- Combined state of the retrieveData stream: the receive goroutine
(lastTotal, active flag), the modelled throttle (available tokens, failed
flag) and the send loop (bytes sent, active flag). -/
structure RetrieveState where
  recvActive : Bool
  sendActive : Bool
  lastTotal : Int
  failed : Bool
  available : Int
  sent : Int
deriving DecidableEq

/-- Fresh retrieveData state. -/
def retrieveInit : RetrieveState :=
  ⟨true, true, 0, false, 0, 0⟩

/-- One event of the interleaved execution: the receive goroutine gets the
next bandwidth allocation (with cumulative total `total`; `valid` is the
outcome of the unmarshal/signature/payer checks), or the send loop runs one
iteration. -/
inductive REvent
  | recv (total : Int) (valid : Bool)
  | send
deriving DecidableEq

/-- psserver store.go:466-517, one iteration of the allocation recv loop:
after the validity checks, a total lower than the previously received total
fails the throttle and ends the goroutine; otherwise the difference is
produced into the throttle. Totals are int64, compared as signed
integers. -/
def stepRecv (st : RetrieveState) (total : Int) (valid : Bool) : RetrieveState :=
  if st.recvActive = false then st
  else if valid = false then { st with failed := true, recvActive := false }
  else if st.lastTotal > total then { st with failed := true, recvActive := false }
  else { st with available := st.available + (total - st.lastTotal), lastTotal := total }

/-- psserver store.go:519-544, one iteration of the data send loop: a
ConsumeOrWait against the throttle, which returns the error once the
throttle failed (ending the loop before any further bytes are written),
blocks while no tokens are available, and otherwise admits
min(available, 32 KiB) bytes which are then copied to the stream. -/
def stepSend (st : RetrieveState) : RetrieveState :=
  if st.sendActive = false then st
  else if st.failed then { st with sendActive := false }
  else if st.available ≤ 0 then st
  else
    let n := min st.available (32 * 1024)
    { st with available := st.available - n, sent := st.sent + n }

/-- Run a sequence of interleaved events. -/
def runRetrieve : List REvent → RetrieveState → RetrieveState
  | [], st => st
  | .recv total valid :: evs, st => runRetrieve evs (stepRecv st total valid)
  | .send :: evs, st => runRetrieve evs (stepSend st)

/-! ## pkg/audit/verifier.go -/

/-- One downloaded share as collected by DownloadShares: the piece number,
the downloaded bytes, and whether the download errored (in which case the
data is nil). -/
structure AuditShare where
  num : Nat
  data : List Nat
  errored : Bool
deriving DecidableEq

/-- verifier.go:160-178, makeCopies: an errored original leaves the
zero-value infectious share (number 0, nil data) in its slot; otherwise
data and piece number are copied. -/
def makeCopies (originals : List AuditShare) : List AuditShare :=
  originals.map (fun s => if s.errored then ⟨0, [], false⟩ else ⟨s.num, s.data, false⟩)

/-- verifier.go:197-202, the reporting loop of auditShares: after Correct
has rewritten the copies, report the piece number of every copy whose data
no longer equals the original downloaded data. `corrected` stands for the
copies slice after the call to the external infectious Correct routine. -/
def auditSharesFailed (originals corrected : List AuditShare) : List Nat :=
  (originals.zip corrected).filterMap
    (fun p => if p.1.data ≠ p.2.data then some p.2.num else none)

/-! ## Reed-Solomon erasure scheme (pkg/eestream rs.go wrapping the external
infectious codec; neither source is part of this tree).

Modelled from the spec: a fixed Reed-Solomon code over a finite field,
parameterized by (k, n); a stripe is k blocks of s symbols; share i is the
deterministic evaluation of the stripe polynomials at point i; decoding
from at least k distinct shares interpolates the polynomials back. The
field is kept abstract (the implementation uses GF(2^8), any field with
enough points carries the same argument). -/

/-- The polynomial carrying one symbol column of a stripe: coefficient i is
the symbol of block i. -/
noncomputable def rsPoly {k : ℕ} {F : Type} [Field F] (col : Fin k → F) : Polynomial F :=
  ∑ i : Fin k, Polynomial.monomial (i : ℕ) (col i)

/-- Encode one symbol column into its n share symbols: share j carries the
evaluation at point j. -/
noncomputable def rsEncodeCol {k n : ℕ} {F : Type} [Field F] (pts : Fin n → F)
    (col : Fin k → F) : Fin n → F :=
  fun j => (rsPoly col).eval (pts j)

/-- Decode one symbol column from the shares selected by `sel` (only those
share values are read by the interpolation). -/
noncomputable def rsDecodeCol {k n : ℕ} {F : Type} [Field F] (pts : Fin n → F)
    (sel : Finset (Fin n)) (shares : Fin n → F) : Fin k → F :=
  fun i => (Lagrange.interpolate sel pts shares).coeff (i : ℕ)

/-- A stripe is k blocks of ssize symbols; encoding produces n shares of
ssize symbols, column by column. -/
noncomputable def rsEncodeStripe {k n ssize : ℕ} {F : Type} [Field F] (pts : Fin n → F)
    (stripe : Fin k → Fin ssize → F) : Fin n → Fin ssize → F :=
  fun j b => rsEncodeCol pts (fun i => stripe i b) j

/-- Decode a stripe from the selected shares, column by column. -/
noncomputable def rsDecodeStripe {k n ssize : ℕ} {F : Type} [Field F] (pts : Fin n → F)
    (sel : Finset (Fin n)) (shares : Fin n → Fin ssize → F) : Fin k → Fin ssize → F :=
  fun i b => rsDecodeCol pts sel (fun j => shares j b) i

/-- Encode a stream of stripes. -/
noncomputable def rsEncodeStream {k n ssize : ℕ} {F : Type} [Field F] (pts : Fin n → F)
    (stream : List (Fin k → Fin ssize → F)) : List (Fin n → Fin ssize → F) :=
  stream.map (rsEncodeStripe pts)

/-- Decode a stream of encoded stripes from the shares selected by sel. -/
noncomputable def rsDecodeStream {k n ssize : ℕ} {F : Type} [Field F] (pts : Fin n → F)
    (sel : Finset (Fin n)) (stream : List (Fin n → Fin ssize → F)) :
    List (Fin k → Fin ssize → F) :=
  stream.map (rsDecodeStripe pts sel)

/-! ## pkg/encryption path encryption (path.go is not part of this tree;
only its tests are).

Modelled from the spec: path components are independently encrypted and
joined by the slash delimiter; the per-component key is chained by a
derivation from the parent key and the component; decryption mirrors the
chain. The component cipher and the key derivation are abstract
parameters, constrained only by round-trip and by producing slash-free
ciphertext components. -/

/-- Split a path at the slash delimiter; the empty path yields one empty
component, a trailing slash yields a trailing empty component. -/
def splitPath : BStr → List BStr
  | [] => [[]]
  | c :: rest =>
    match splitPath rest with
    | [] => [[]]
    | comp :: comps =>
      if c = '/' then [] :: comp :: comps else (c :: comp) :: comps

/-- Join components with the slash delimiter. -/
def joinPath : List BStr → BStr
  | [] => []
  | [c] => c
  | c :: cs => c ++ '/' :: joinPath cs

/-- A component free of the delimiter. -/
def noSlash (c : BStr) : Bool := !(c.contains '/')

/-- Encrypt the component list under the chained keys. -/
def encComps {K : Type} (enc : BStr → K → BStr) (der : K → BStr → K) :
    List BStr → K → List BStr
  | [], _ => []
  | c :: cs, k => enc c k :: encComps enc der cs (der k c)

/-- Decrypt the component list under the chained keys (the chain is rebuilt
from the decrypted components). -/
def decComps {K : Type} (dec : BStr → K → BStr) (der : K → BStr → K) :
    List BStr → K → List BStr
  | [], _ => []
  | c :: cs, k =>
    let p := dec c k
    p :: decComps dec der cs (der k p)

/-- EncryptPath: split, encrypt each component under the chained key, join. -/
def EncryptPath {K : Type} (enc : BStr → K → BStr) (der : K → BStr → K)
    (p : BStr) (key : K) : BStr :=
  joinPath (encComps enc der (splitPath p) key)

/-- DecryptPath: split, decrypt each component under the chained key, join. -/
def DecryptPath {K : Type} (dec : BStr → K → BStr) (der : K → BStr → K)
    (p : BStr) (key : K) : BStr :=
  joinPath (decComps dec der (splitPath p) key)

/-! ## pointerdb Server.List (src/cmd/uplink/main.go:473-508).

Server.List is in the tree: it normalizes a non-empty query prefix by
appending the delimiter when the last byte is not already the delimiter,
then calls storage.ListV2 with the normalized prefix, the bounds, the
recursion flag and the limit, and wraps each raw item into a response item
carrying the key and the IsPrefix flag.

The storage.ListV2 scan itself (package storage) is not under src/; it is
modelled from the spec: scan the KV in ascending byte order starting at the
given (already normalized) prefix; strip that prefix from the keys; honor
start_after as an exclusive lower bound and end_before as an exclusive
upper bound; when non-recursive, collapse each maximal run of keys sharing
the next slash-bounded component into a single directory entry and skip
the run; truncate at the limit and report more=true exactly when
truncation happened. -/

/-- One listing entry: the (prefix-stripped) path, and whether the entry
stands for a collapsed slash-bounded run (the IsPrefix flag of the RPC). -/
structure LItem where
  path : BStr
  isDir : Bool
deriving DecidableEq

/-- The first slash-bounded component of a path, delimiter included;
none when the path holds no slash. -/
def firstComp : BStr → Option BStr
  | [] => none
  | c :: rest =>
    if c = '/' then some ['/']
    else (firstComp rest).map (fun t => c :: t)

/-- Collapse runs sharing their first slash-bounded component into a single
directory entry, skipping past each run. The fuel argument (any bound on
the list length) keeps the recursion structural. -/
def collapseFuel : Nat → List BStr → List LItem
  | 0, _ => []
  | _ + 1, [] => []
  | fuel + 1, p :: rest =>
    match firstComp p with
    | none => ⟨p, false⟩ :: collapseFuel fuel rest
    | some c => ⟨c, true⟩ :: collapseFuel fuel (rest.dropWhile (fun q => c.isPrefixOf q))

def collapse (l : List BStr) : List LItem := collapseFuel l.length l

/-- The scan phase of the ListV2 model: keys under the given prefix, in
ascending order, with that prefix stripped and the exclusive bounds
applied. -/
def listScan (keys : List BStr) (pfx startAfter endBefore : BStr) : List BStr :=
  ((keys.filter (fun k => pfx.isPrefixOf k)).map (fun k => k.drop pfx.length)).filter
    (fun k => (startAfter.isEmpty || lexLt startAfter k) && (endBefore.isEmpty || lexLt k endBefore))

/-- The ListV2 model over the stored keys (assumed in ascending order, as
the ordered KV store yields them): scan, collapse when non-recursive,
truncate at the limit. The prefix is taken as handed to ListV2 (Server.List
normalizes it first, see ServerList). -/
def listKeys (keys : List BStr) (pfx startAfter endBefore : BStr)
    (recursive : Bool) (limit : Nat) : List LItem × Bool :=
  let bounded := listScan keys pfx startAfter endBefore
  let items := if recursive then bounded.map (fun k => ⟨k, false⟩) else collapse bounded
  if limit ≠ 0 ∧ limit < items.length then (items.take limit, true) else (items, false)

/-- The prefix normalization of Server.List (src/cmd/uplink/main.go:480-486):
an empty request prefix stays empty; a non-empty prefix whose last byte is
not the delimiter gets the delimiter appended before the ListV2 call. -/
def normPfx (pfx : BStr) : BStr :=
  if pfx = [] then []
  else if pfx.getLast? = some '/' then pfx
  else pfx ++ ['/']

/-- Server.List (src/cmd/uplink/main.go:473-508): normalize the request
prefix, then run the ListV2 scan with the normalized prefix, the bounds,
the recursion flag and the limit; the response carries the raw items and
the more flag unchanged. -/
def ServerList (keys : List BStr) (pfx startAfter endBefore : BStr)
    (recursive : Bool) (limit : Nat) : List LItem × Bool :=
  listKeys keys (normPfx pfx) startAfter endBefore recursive limit

/-! ## Concrete fixtures used by witnesses and counterexamples -/

/-- A storage node with a two-character id. -/
def wNode (i : Nat) : PBNode := ⟨['n', Char.ofNat (48 + i)]⟩

/-- Four distinct nodes, the (k=2, r=3, o=3, n=4) upload target list. -/
def wNodes4 : List (Option PBNode) :=
  [some (wNode 0), some (wNode 1), some (wNode 2), some (wNode 3)]

/-- Goroutine outcomes: only the Put to node 2 fails. -/
def wOut1 : Nat → Option GoErr := fun i => if i = 2 then some .putErr else none

/-- Goroutine outcomes: the Puts to nodes 2 and 3 fail. -/
def wOut2 : Nat → Option GoErr := fun i => if 2 ≤ i then some .putErr else none

/-- The stored key set of the pointerdb List test, in ascending byte
order. -/
def wKeys : List BStr :=
  ["müsic".data, "müsic/album/söng3.mp3".data, "müsic/söng1.mp3".data,
   "müsic/söng2.mp3".data, "müsic/söng4.mp3".data, "sample.😶".data,
   "ビデオ/movie.mkv".data]

/-- The key set of the listing example of the spec, in ascending byte
order. -/
def wKeys2 : List BStr :=
  ["a".data, "a/xa".data, "a/xb".data, "aa".data, "b".data]

/-! ## Order infrastructure on byte strings -/

theorem lexLt_cons (x y : Char) (xs ys : BStr) :
    lexLt (x :: xs) (y :: ys) =
      if x < y then true else if y < x then false else lexLt xs ys := rfl

theorem lexLt_trans : ∀ a b c : BStr, lexLt a b = true → lexLt b c = true → lexLt a c = true := by
  intro a
  induction a with
  | nil =>
    intro b c h1 h2
    cases b with
    | nil => simp [lexLt] at h1
    | cons y ys =>
      cases c with
      | nil => simp [lexLt] at h2
      | cons z zs => simp [lexLt]
  | cons x xs ih =>
    intro b c h1 h2
    cases b with
    | nil => simp [lexLt] at h1
    | cons y ys =>
      cases c with
      | nil => simp [lexLt] at h2
      | cons z zs =>
        rw [lexLt_cons] at h1 h2 ⊢
        rcases lt_trichotomy x y with hxy | hxy | hxy
        · rcases lt_trichotomy y z with hyz | hyz | hyz
          · rw [if_pos (lt_trans hxy hyz)]
          · subst hyz; rw [if_pos hxy]
          · rw [if_pos hyz, if_neg (lt_asymm hyz)] at h2; exact absurd h2 (by simp)
        · subst hxy
          rcases lt_trichotomy x z with hxz | hxz | hxz
          · rw [if_pos hxz]
          · subst hxz
            rw [if_neg (lt_irrefl x), if_neg (lt_irrefl x)] at h1 h2 ⊢
            exact ih _ _ h1 h2
          · rw [if_neg (lt_asymm hxz), if_pos hxz] at h2; exact absurd h2 (by simp)
        · rw [if_neg (lt_asymm hxy), if_pos hxy] at h1; exact absurd h1 (by simp)

theorem lexLt_irrefl : ∀ a : BStr, lexLt a a = false := by
  intro a
  induction a with
  | nil => rfl
  | cons x xs ih => rw [lexLt_cons, if_neg (lt_irrefl x), if_neg (lt_irrefl x)]; exact ih

theorem lexLt_asymm : ∀ a b : BStr, lexLt a b = true → lexLt b a = false := by
  intro a b h
  cases hba : lexLt b a with
  | false => rfl
  | true => have := lexLt_trans a b a h hba; rw [lexLt_irrefl] at this; exact absurd this (by simp)

theorem lexLt_total : ∀ a b : BStr, lexLt a b = false → lexLt b a = false → a = b := by
  intro a
  induction a with
  | nil =>
    intro b h1 _
    cases b with
    | nil => rfl
    | cons y ys => simp [lexLt] at h1
  | cons x xs ih =>
    intro b h1 h2
    cases b with
    | nil => simp [lexLt] at h2
    | cons y ys =>
      rw [lexLt_cons] at h1 h2
      rcases lt_trichotomy x y with hxy | hxy | hxy
      · rw [if_pos hxy] at h1; exact absurd h1 (by simp)
      · subst hxy
        rw [if_neg (lt_irrefl x), if_neg (lt_irrefl x)] at h1 h2
        rw [ih ys h1 h2]
      · rw [if_pos hxy] at h2; exact absurd h2 (by simp)

theorem lexLe_refl (a : BStr) : LexLe a a := by
  unfold LexLe lexLe
  rw [lexLt_irrefl]
  rfl

theorem lexLe_total_pair (a b : BStr) : LexLe a b ∨ LexLe b a := by
  unfold LexLe lexLe
  cases hba : lexLt b a with
  | false => left; rfl
  | true => right; rw [lexLt_asymm b a hba]; rfl

theorem lexLe_trans_pair (a b c : BStr) (h1 : LexLe a b) (h2 : LexLe b c) : LexLe a c := by
  unfold LexLe lexLe at h1 h2 ⊢
  cases hca : lexLt c a with
  | false => rfl
  | true =>
    cases hba : lexLt b a with
    | true => rw [hba] at h1; exact absurd h1 (by simp)
    | false =>
      cases hcb : lexLt c b with
      | true => rw [hcb] at h2; exact absurd h2 (by simp)
      | false =>
        cases hab : lexLt a b with
        | false => rw [lexLt_total a b hab hba] at hca; rw [hca] at hcb; exact absurd hcb (by simp)
        | true =>
          have := lexLt_trans c a b hca hab
          rw [this] at hcb
          exact absurd hcb (by simp)

theorem lexLe_antisymm (a b : BStr) (h1 : LexLe a b) (h2 : LexLe b a) : a = b := by
  unfold LexLe lexLe at h1 h2
  have hba : lexLt b a = false := by
    cases h : lexLt b a with
    | false => rfl
    | true => rw [h] at h1; exact absurd h1 (by simp)
  have hab : lexLt a b = false := by
    cases h : lexLt a b with
    | false => rfl
    | true => rw [h] at h2; exact absurd h2 (by simp)
  exact lexLt_total a b hab hba

/-! ## withIdx membership -/

theorem mem_withIdx {α : Type} (l : List α) : ∀ (j i : Nat) (x : α),
    (i, x) ∈ withIdx j l ↔ j ≤ i ∧ l[i - j]? = some x := by
  induction l with
  | nil =>
    intro j i x
    simp [withIdx]
  | cons y ys ih =>
    intro j i x
    simp only [withIdx, List.mem_cons, ih, Prod.mk.injEq]
    constructor
    · rintro (⟨rfl, rfl⟩ | ⟨hji, hget⟩)
      · refine ⟨le_refl _, ?_⟩
        rw [Nat.sub_self]
        simp
      · refine ⟨Nat.le_of_succ_le hji, ?_⟩
        have heq : i - j = (i - (j + 1)) + 1 := by omega
        rw [heq]
        simpa using hget
    · rintro ⟨hji, hget⟩
      rcases Nat.eq_or_lt_of_le hji with rfl | hlt
      · left
        rw [Nat.sub_self] at hget
        simp at hget
        exact ⟨rfl, hget.symm⟩
      · right
        refine ⟨hlt, ?_⟩
        have heq : i - j = (i - (j + 1)) + 1 := by omega
        rw [heq] at hget
        simpa using hget

/-! ## Claim C6 : repair checker -/

theorem mem_offlineIdx (lookups : List (Option PBNode)) (i : Nat) :
    i ∈ offlineIdx lookups ↔ lookups[i]? = some none := by
  unfold offlineIdx
  rw [List.mem_filterMap]
  constructor
  · rintro ⟨⟨i2, x⟩, hmem, hif⟩
    by_cases hx : x = none
    · subst hx
      simp at hif
      subst hif
      have hm := (mem_withIdx lookups 0 i2 none).mp ?_
      · simpa using hm.2
      · simpa using hmem
    · simp [hx] at hif
  · intro hget
    refine ⟨(i, none), ?_, by simp⟩
    rw [mem_withIdx]
    simpa using hget

/-- Claim C6: for every REMOTE pointer it scans, the checker resolves the
piece node ids via BulkLookup, counts nil lookup results as missing, and
enqueues the injured segment, carrying the path and the indices of the
missing pieces, exactly when healthy = total - missing is strictly below
the repair threshold. -/
theorem claim6_checker (path : BStr) (lookups : List (Option PBNode)) (r : Int) :
    (∀ i, i ∈ offlineIdx lookups ↔ lookups[i]? = some none)
    ∧ (checkOnePointer path lookups r = some ⟨path, offlineIdx lookups⟩ ↔
        (lookups.length : Int) - ((offlineIdx lookups).length : Int) < r)
    ∧ (checkOnePointer path lookups r = none ↔
        ¬ (lookups.length : Int) - ((offlineIdx lookups).length : Int) < r) := by
  refine ⟨fun i => mem_offlineIdx lookups i, ?_, ?_⟩ <;>
    by_cases hc : (lookups.length : Int) - ((offlineIdx lookups).length : Int) < r <;>
      simp [checkOnePointer, hc]

/-! ## Claim C10 : connection pool -/

theorem find_append_absent (l : List (BStr × Conn)) (id : BStr) (c : Conn)
    (h : l.find? (fun p => p.1 = id) = none) :
    (l ++ [(id, c)]).find? (fun p => p.1 = id) = some (id, c) := by
  induction l with
  | nil => simp
  | cons a rest ih =>
    by_cases ha : a.1 = id
    · rw [List.find?_cons_of_pos _ (by simpa using ha)] at h
      exact absurd h (by simp)
    · rw [List.find?_cons_of_neg _ (by simpa using ha)] at h
      rw [List.cons_append, List.find?_cons_of_neg _ (by simpa using ha)]
      exact ih h

theorem poolFind_poolSet_absent (pool : Pool) (id : BStr) (c : Conn)
    (hnone : poolFind pool id = none) : poolFind (poolSet pool id c) id = some c := by
  have hfind : pool.items.find? (fun p => p.1 = id) = none := by
    unfold poolFind at hnone
    cases h : pool.items.find? (fun p => p.1 = id) with
    | none => rfl
    | some p => rw [h] at hnone; simp at hnone
  unfold poolFind poolSet
  rw [hfind]
  simp only [Option.isSome_none, Bool.false_eq_true, if_false]
  rw [find_append_absent pool.items id c hfind]
  rfl

/-- After a failed first dial for a node id, the recorded entry holds the
error and no grpc pointer. -/
theorem poolDial_first_fails (pool : Pool) (id addr : BStr)
    (hnone : poolFind pool id = none) :
    (poolDial pool id addr true).result = .error ()
    ∧ (poolDial pool id addr true).attempted = true
    ∧ poolFind (poolDial pool id addr true).pool id = some ⟨addr, true, some (), false⟩ := by
  refine ⟨?_, ?_, ?_⟩ <;> simp only [poolDial, hnone, NewConn]
  · rfl
  · rfl
  · exact poolFind_poolSet_absent pool id _ hnone

/-- Claim C10 (amended): after a failed first Dial for a node id, every
subsequent Dial returns the same error without attempting a new
connection; Disconnect does not remove the failed entry (it removes only
entries holding a live connection), so the error persists until Init
resets the pool, after which a Dial attempts a fresh connection. -/
theorem claim10_amended (pool : Pool) (id addr addr2 : BStr) (f : Bool) (c : Conn)
    (hfind : poolFind pool id = some c) (hdialed : c.dialed = true)
    (herr : c.err = some ()) :
    ((poolDial pool id addr2 f).result = .error ()
      ∧ (poolDial pool id addr2 f).attempted = false)
    ∧ (c.hasGrpc = false → poolDisconnect pool id = pool)
    ∧ ((poolDial poolInit id addr f).attempted = true) := by
  refine ⟨?_, ?_, ?_⟩
  · constructor <;> simp [poolDial, hfind, hdialed, herr]
  · intro hg
    simp [poolDisconnect, hfind, hg]
  · simp [poolDial, poolFind, poolInit, NewConn]

/-- Witness for claim10_amended: the concrete failed-dial pool entry. -/
theorem claim10_amended_witness :
    (poolFind (poolDial poolInit ['x'] ['a'] true).pool ['x'] =
        some ⟨['a'], true, some (), false⟩)
    ∧ (((poolDial (poolDial poolInit ['x'] ['a'] true).pool ['x'] ['a'] false).result = .error ()
        ∧ (poolDial (poolDial poolInit ['x'] ['a'] true).pool ['x'] ['a'] false).attempted = false)
      ∧ ((⟨['a'], true, some (), false⟩ : Conn).hasGrpc = false →
          poolDisconnect (poolDial poolInit ['x'] ['a'] true).pool ['x'] =
            (poolDial poolInit ['x'] ['a'] true).pool)
      ∧ ((poolDial poolInit ['x'] ['a'] false).attempted = true)) :=
  ⟨by decide,
   claim10_amended (poolDial poolInit ['x'] ['a'] true).pool ['x'] ['a'] ['a'] false
     ⟨['a'], true, some (), false⟩ (by decide) (by decide) (by decide)⟩

/-- Claim C10 is refuted as stated: after a failed first Dial, Disconnect
does not remove the pool entry, and a later Dial still returns the stale
error without attempting a fresh connection even though the transport
would now succeed. -/
theorem claim10_counterexample :
    (poolDial poolInit ['x'] ['a'] true).result = .error ()
    ∧ poolDisconnect (poolDial poolInit ['x'] ['a'] true).pool ['x'] =
        (poolDial poolInit ['x'] ['a'] true).pool
    ∧ (poolDial (poolDisconnect (poolDial poolInit ['x'] ['a'] true).pool ['x'])
        ['x'] ['a'] false).result = .error ()
    ∧ (poolDial (poolDisconnect (poolDial poolInit ['x'] ['a'] true).pool ['x'])
        ['x'] ['a'] false).attempted = false := by
  decide

/-! ## Claim C5 : retrieve bandwidth monotonicity -/

/-- A failed throttle stays failed and freezes the sent-byte counter: no
step of either loop sends data once the throttle holds an error. -/
theorem runRetrieve_failed_frozen : ∀ (evs : List REvent) (st : RetrieveState),
    st.failed = true →
    (runRetrieve evs st).failed = true ∧ (runRetrieve evs st).sent = st.sent := by
  intro evs
  induction evs with
  | nil => intro st h; exact ⟨h, rfl⟩
  | cons ev rest ih =>
    intro st h
    cases ev with
    | recv total valid =>
      have hstep : (stepRecv st total valid).failed = true ∧
          (stepRecv st total valid).sent = st.sent := by
        unfold stepRecv
        split
        · exact ⟨h, rfl⟩
        · split
          · exact ⟨rfl, rfl⟩
          · split
            · exact ⟨rfl, rfl⟩
            · exact ⟨h, rfl⟩
      have hrun := ih (stepRecv st total valid) hstep.1
      exact ⟨hrun.1, by rw [runRetrieve, hrun.2, hstep.2]⟩
    | send =>
      have hstep : (stepSend st).failed = true ∧ (stepSend st).sent = st.sent := by
        unfold stepSend
        split_ifs with h1
        · exact ⟨h, rfl⟩
        · exact ⟨h, rfl⟩
      have hrun := ih (stepSend st) hstep.1
      exact ⟨hrun.1, by rw [runRetrieve, hrun.2, hstep.2]⟩

/-- Claim C5: in every Retrieve stream, cumulative allocation totals must
be non-decreasing; when the receive loop gets an allocation whose signed
total is lower than the previously received total, it fails the throttle,
and in every continuation of the interleaved execution the send loop adds
no further data bytes (its next ConsumeOrWait returns the error). -/
theorem claim5_monotonic (st : RetrieveState) (total : Int) (evs : List REvent)
    (hactive : st.recvActive = true) (hlt : total < st.lastTotal) :
    (stepRecv st total true).failed = true
    ∧ (runRetrieve evs (stepRecv st total true)).failed = true
    ∧ (runRetrieve evs (stepRecv st total true)).sent = st.sent := by
  have hstep : stepRecv st total true = { st with failed := true, recvActive := false } := by
    unfold stepRecv
    split_ifs with h1 h2
    all_goals first
      | rfl
      | exact absurd h1 (by rw [hactive]; simp)
  rw [hstep]
  have hrun := runRetrieve_failed_frozen evs { st with failed := true, recvActive := false } rfl
  exact ⟨rfl, hrun.1, hrun.2⟩

/-- Witness for claim5_monotonic: a stream that received total 100, then a
lower total 60; two further send iterations and one further allocation add
no bytes. -/
theorem claim5_monotonic_witness :
    (stepRecv retrieveInit 100 true).recvActive = true
    ∧ (60 : Int) < (stepRecv retrieveInit 100 true).lastTotal
    ∧ (stepRecv (stepRecv retrieveInit 100 true) 60 true).failed = true
    ∧ (runRetrieve [.send, .recv 200 true, .send]
        (stepRecv (stepRecv retrieveInit 100 true) 60 true)).sent =
        (stepRecv retrieveInit 100 true).sent :=
  ⟨by decide, by decide,
   (claim5_monotonic (stepRecv retrieveInit 100 true) 60 [.send, .recv 200 true, .send]
      (by decide) (by decide)).1,
   (claim5_monotonic (stepRecv retrieveInit 100 true) 60 [.send, .recv 200 true, .send]
      (by decide) (by decide)).2.2⟩

/-! ## Claim C2 : delete on pointer-write failure -/

/-- Claim C2 is refuted as stated: a fully successful dispersal followed by
a failing pointer write returns the error while issuing no delete to any of
the four nodes that accepted a share. -/
theorem claim2_counterexample :
    (segmentPutRemote wNodes4 4 3 (fun _ => none) false true).result = .error .pdbPutFailed
    ∧ wNode 0 ∈ (ecPut wNodes4 4 3 (fun _ => none) false).stored
    ∧ (segmentPutRemote wNodes4 4 3 (fun _ => none) false true).deletesIssued = [] := by
  decide

/-- Claim C2 (amended): when the pointer write fails after a successful
dispersal, segmentStore.Put returns the wrapped error and issues no delete
to any storage node; the stored pieces are left in place. -/
theorem claim2_amended (nodes : List (Option PBNode)) (totalCount repairThreshold : Nat)
    (outcome : Nat → Option GoErr) (ctxDone : Bool) (succ : List (Option PBNode))
    (hok : (ecPut nodes totalCount repairThreshold outcome ctxDone).result = .ok succ) :
    (segmentPutRemote nodes totalCount repairThreshold outcome ctxDone true).result =
        .error .pdbPutFailed
    ∧ (segmentPutRemote nodes totalCount repairThreshold outcome ctxDone true).deletesIssued
        = [] := by
  constructor <;> simp [segmentPutRemote, hok]

/-- Witness for claim2_amended at the concrete four-node upload. -/
theorem claim2_amended_witness :
    (ecPut wNodes4 4 3 (fun _ => none) false).result = .ok wNodes4
    ∧ ((segmentPutRemote wNodes4 4 3 (fun _ => none) false true).result =
          .error .pdbPutFailed
      ∧ (segmentPutRemote wNodes4 4 3 (fun _ => none) false true).deletesIssued = []) :=
  ⟨by decide, claim2_amended wNodes4 4 3 (fun _ => none) false wNodes4 (by decide)⟩

/-! ## Claim C1 : upload partial failure -/

theorem mrp_aux (outcome : Nat → Option GoErr) :
    ∀ (l : List (Option PBNode)) (j : Nat),
    ((withIdx j ((withIdx j l).map (fun p => if outcome p.1 = none then p.2 else none))).filterMap
      (fun p => match p.2 with
        | none => none
        | some n => some (⟨p.1, n.id⟩ : RemotePiece)))
    = (withIdx j l).filterMap
      (fun p => match p.2 with
        | none => none
        | some n => if outcome p.1 = none then some (⟨p.1, n.id⟩ : RemotePiece) else none) := by
  intro l
  induction l with
  | nil => intro j; rfl
  | cons x xs ih =>
    intro j
    simp only [withIdx, List.map_cons, List.filterMap_cons]
    rw [ih (j + 1)]
    cases houtj : outcome j with
    | none => cases x <;> simp
    | some e => cases x <;> simp

theorem makeRemotePieces_successful (nodes : List (Option PBNode))
    (outcome : Nat → Option GoErr) :
    makeRemotePieces (successfulNodes nodes outcome) =
      (withIdx 0 nodes).filterMap (fun p =>
        match p.2 with
        | none => none
        | some n => if outcome p.1 = none then some (⟨p.1, n.id⟩ : RemotePiece) else none) := by
  unfold makeRemotePieces successfulNodes
  exact mrp_aux outcome nodes 0

/-- Claim C1 (amended): for a validated upload with a live context, fewer
successful Puts than the repair threshold fail the upload with an error but
delete nothing (pieces are deleted only when the context was cancelled, in
which case every non-nil target node is sent a delete); at least the repair
threshold of successes yields the successful subset, and the composed
remote pointer references exactly the slots whose Put succeeded, each
keeping its slot index as its piece number. -/
theorem claim1_amended (nodes : List (Option PBNode)) (total r : Nat)
    (outcome : Nat → Option GoErr) (hlen : nodes.length = total)
    (huniq : unique nodes = true) :
    (successfulCount nodes outcome < r →
      (ecPut nodes total r outcome false).result = .error .tooFewSuccesses
      ∧ (ecPut nodes total r outcome false).deleted = [])
    ∧ (r ≤ successfulCount nodes outcome →
      (ecPut nodes total r outcome false).result = .ok (successfulNodes nodes outcome))
    ∧ (ecPut nodes total r outcome true).deleted = nodes.filterMap id
    ∧ makeRemotePieces (successfulNodes nodes outcome) =
      (withIdx 0 nodes).filterMap (fun p =>
        match p.2 with
        | none => none
        | some n => if outcome p.1 = none then some (⟨p.1, n.id⟩ : RemotePiece) else none) := by
  refine ⟨?_, ?_, ?_, makeRemotePieces_successful nodes outcome⟩
  · intro h
    constructor <;> simp [ecPut, hlen, huniq, h]
  · intro h
    simp [ecPut, hlen, huniq, Nat.not_lt.mpr h]
  · simp [ecPut, hlen, huniq]

/-- Witness for claim1_amended: the (k=2, r=3, o=3, n=4) upload with the
single Put to node 2 failing references exactly three pieces, keeping the
original piece numbers 0, 1, 3. -/
theorem claim1_amended_witness :
    (wNodes4.length = 4 ∧ unique wNodes4 = true)
    ∧ (3 ≤ successfulCount wNodes4 wOut1 →
        (ecPut wNodes4 4 3 wOut1 false).result = .ok (successfulNodes wNodes4 wOut1))
    ∧ 3 ≤ successfulCount wNodes4 wOut1
    ∧ (makeRemotePieces (successfulNodes wNodes4 wOut1)).length = 3
    ∧ makeRemotePieces (successfulNodes wNodes4 wOut1) =
        [⟨0, ['n', '0']⟩, ⟨1, ['n', '1']⟩, ⟨3, ['n', '3']⟩] :=
  ⟨⟨by decide, by decide⟩,
   (claim1_amended wNodes4 4 3 wOut1 (by decide) (by decide)).2.1,
   by decide, by decide, by decide⟩

/-- Claim C1 is refuted as stated: with two of four Puts failing and the
context still live, the upload aborts but the successfully stored pieces
are not deleted from their nodes. -/
theorem claim1_counterexample :
    (ecPut wNodes4 4 3 wOut2 false).result = .error .tooFewSuccesses
    ∧ wNode 0 ∈ (ecPut wNodes4 4 3 wOut2 false).stored
    ∧ (ecPut wNodes4 4 3 wOut2 false).deleted = [] := by
  decide

/-! ## Claim C7 : audit verification -/

theorem auditShares_aux (trueData : Nat → List Nat) :
    ∀ (originals : List AuditShare) (corrected : List AuditShare) (j : Nat),
    corrected = (List.range' j originals.length).map
      (fun i => (⟨i, trueData i, false⟩ : AuditShare)) →
    auditSharesFailed originals corrected =
      (withIdx j originals).filterMap
        (fun p => if p.2.data ≠ trueData p.1 then some p.1 else none) := by
  intro originals
  induction originals with
  | nil =>
    intro corrected j hc
    subst hc
    rfl
  | cons o os ih =>
    intro corrected j hc
    subst hc
    simp only [List.length_cons, List.range'_succ, List.map_cons]
    unfold auditSharesFailed
    simp only [List.zip_cons_cons, List.filterMap_cons]
    have htail := ih ((List.range' (j + 1) os.length).map
      (fun i => (⟨i, trueData i, false⟩ : AuditShare))) (j + 1) rfl
    unfold auditSharesFailed at htail
    rw [htail]
    rfl

/-- Claim C7: with the downloaded shares of one stripe carrying their piece
numbers in order, no download errors, and at least k of the provided shares
uncorrupted, so that the external Correct routine restores the true share
vector, the audit reports as failed exactly the piece numbers whose
downloaded content disagrees with the corresponding reconstructed share. -/
theorem claim7_audit (k : Nat) (trueData : Nat → List Nat)
    (originals corrected : List AuditShare)
    (hnum : originals.map AuditShare.num = List.range originals.length)
    (hok : originals.all (fun s => s.errored = false) = true)
    (hk : k ≤ ((withIdx 0 originals).filter (fun p => p.2.data = trueData p.1)).length)
    (hcorr : corrected = (List.range originals.length).map
      (fun i => (⟨i, trueData i, false⟩ : AuditShare))) :
    auditSharesFailed originals corrected =
      (withIdx 0 originals).filterMap
        (fun p => if p.2.data ≠ trueData p.1 then some p.1 else none) := by
  rw [List.range_eq_range'] at hcorr
  exact auditShares_aux trueData originals corrected 0 hcorr

/-- Witness for claim7_audit: four shares of a (k=2, n=4) stripe, one byte
flipped in the share of piece 2; exactly piece 2 is reported failed. -/
theorem claim7_audit_witness :
    ([(⟨0, [0, 0], false⟩ : AuditShare), ⟨1, [1, 0], false⟩, ⟨2, [2, 1], false⟩,
        ⟨3, [3, 0], false⟩].map AuditShare.num = List.range 4
      ∧ [(⟨0, [0, 0], false⟩ : AuditShare), ⟨1, [1, 0], false⟩, ⟨2, [2, 1], false⟩,
          ⟨3, [3, 0], false⟩].all (fun s => s.errored = false) = true)
    ∧ auditSharesFailed
        [⟨0, [0, 0], false⟩, ⟨1, [1, 0], false⟩, ⟨2, [2, 1], false⟩, ⟨3, [3, 0], false⟩]
        ((List.range 4).map (fun i => (⟨i, [i, 0], false⟩ : AuditShare))) = [2] :=
  ⟨⟨by decide, by decide⟩,
   (claim7_audit 2 (fun i => [i, 0])
      [⟨0, [0, 0], false⟩, ⟨1, [1, 0], false⟩, ⟨2, [2, 1], false⟩, ⟨3, [3, 0], false⟩]
      ((List.range 4).map (fun i => (⟨i, [i, 0], false⟩ : AuditShare)))
      (by decide) (by decide) (by decide) (by decide)).trans (by decide)⟩

/-! ## Claim C8 : path encryption round trip -/

theorem splitPath_ne_nil : ∀ p : BStr, splitPath p ≠ [] := by
  intro p
  cases p with
  | nil => simp [splitPath]
  | cons c rest =>
    unfold splitPath
    cases h : splitPath rest with
    | nil => simp
    | cons comp comps =>
      split_ifs <;> simp

theorem splitPath_cons_eq (ch : Char) (rest comp : BStr) (comps : List BStr)
    (h : splitPath rest = comp :: comps) :
    splitPath (ch :: rest) =
      if ch = '/' then [] :: comp :: comps else (ch :: comp) :: comps := by
  unfold splitPath
  rw [h]

theorem noSlash_nil : noSlash [] = true := rfl

theorem noSlash_cons (ch : Char) (rest : BStr) :
    noSlash (ch :: rest) = true ↔ (¬ ch = '/' ∧ noSlash rest = true) := by
  unfold noSlash
  constructor
  · intro h
    have hm : '/' ∉ ch :: rest := by simpa using h
    rw [List.mem_cons, not_or] at hm
    exact ⟨fun hc => hm.1 hc.symm, by simpa using hm.2⟩
  · rintro ⟨h1, h2⟩
    have hm : '/' ∉ ch :: rest := by
      rw [List.mem_cons, not_or]
      exact ⟨fun he => h1 he.symm, by simpa using h2⟩
    simpa using hm

theorem splitPath_noSlash : ∀ (p : BStr) (c : BStr), c ∈ splitPath p → noSlash c = true := by
  intro p
  induction p with
  | nil =>
    intro c hc
    simp [splitPath] at hc
    subst hc
    rfl
  | cons ch rest ih =>
    intro c hc
    cases h : splitPath rest with
    | nil => exact absurd h (splitPath_ne_nil rest)
    | cons comp comps =>
      rw [splitPath_cons_eq ch rest comp comps h] at hc
      by_cases hch : ch = '/'
      · rw [if_pos hch] at hc
        rcases List.mem_cons.mp hc with rfl | hc2
        · rfl
        · exact ih c (by rw [h]; exact hc2)
      · rw [if_neg hch] at hc
        rcases List.mem_cons.mp hc with rfl | hc2
        · have hcomp : noSlash comp = true := ih comp (by rw [h]; exact List.mem_cons_self comp comps)
          rw [noSlash_cons]
          exact ⟨hch, hcomp⟩
        · exact ih c (by rw [h]; exact List.mem_cons_of_mem comp hc2)

theorem joinPath_splitPath : ∀ p : BStr, joinPath (splitPath p) = p := by
  intro p
  induction p with
  | nil => rfl
  | cons ch rest ih =>
    cases h : splitPath rest with
    | nil => exact absurd h (splitPath_ne_nil rest)
    | cons comp comps =>
      rw [h] at ih
      rw [splitPath_cons_eq ch rest comp comps h]
      by_cases hch : ch = '/'
      · rw [if_pos hch, hch]
        show '/' :: joinPath (comp :: comps) = '/' :: rest
        rw [ih]
      · rw [if_neg hch]
        cases comps with
        | nil =>
          show ch :: comp = ch :: rest
          have hcr : comp = rest := ih
          rw [hcr]
        | cons c2 cs2 =>
          show (ch :: comp) ++ '/' :: joinPath (c2 :: cs2) = ch :: rest
          simp only [List.cons_append]
          have hcr : comp ++ '/' :: joinPath (c2 :: cs2) = rest := ih
          rw [hcr]

theorem splitPath_noSlash_single : ∀ c : BStr, noSlash c = true → splitPath c = [c] := by
  intro c
  induction c with
  | nil => intro _; rfl
  | cons ch rest ih =>
    intro h
    rw [noSlash_cons] at h
    rw [splitPath_cons_eq ch rest rest [] (ih h.2)]
    rw [if_neg h.1]

theorem splitPath_append_slash : ∀ (c t : BStr), noSlash c = true →
    splitPath (c ++ '/' :: t) = c :: splitPath t := by
  intro c
  induction c with
  | nil =>
    intro t _
    show splitPath ('/' :: t) = [] :: splitPath t
    cases h : splitPath t with
    | nil => exact absurd h (splitPath_ne_nil t)
    | cons comp comps =>
      rw [splitPath_cons_eq '/' t comp comps h, if_pos rfl]
  | cons ch rest ih =>
    intro t h
    rw [noSlash_cons] at h
    show splitPath (ch :: (rest ++ '/' :: t)) = (ch :: rest) :: splitPath t
    cases hsp : splitPath t with
    | nil => exact absurd hsp (splitPath_ne_nil t)
    | cons comp comps =>
      have hmid : splitPath (rest ++ '/' :: t) = rest :: comp :: comps := by
        rw [ih t h.2, hsp]
      rw [splitPath_cons_eq ch _ rest (comp :: comps) hmid, if_neg h.1]

theorem splitPath_joinPath : ∀ cs : List BStr, cs ≠ [] →
    (∀ c ∈ cs, noSlash c = true) → splitPath (joinPath cs) = cs := by
  intro cs
  induction cs with
  | nil => intro h; exact absurd rfl h
  | cons c cs2 ih =>
    intro _ hns
    cases cs2 with
    | nil =>
      show splitPath (joinPath [c]) = [c]
      exact splitPath_noSlash_single c (hns c (List.mem_cons_self c []))
    | cons c2 cs3 =>
      show splitPath (c ++ '/' :: joinPath (c2 :: cs3)) = c :: c2 :: cs3
      rw [splitPath_append_slash c _ (hns c (List.mem_cons_self c _))]
      rw [ih (by simp) (fun x hx => hns x (List.mem_cons_of_mem c hx))]

theorem decComps_encComps {K : Type} (enc dec : BStr → K → BStr) (der : K → BStr → K)
    (h1 : ∀ c k, noSlash c = true → dec (enc c k) k = c) :
    ∀ (cs : List BStr) (k : K), (∀ c ∈ cs, noSlash c = true) →
      decComps dec der (encComps enc der cs k) k = cs := by
  intro cs
  induction cs with
  | nil => intro k _; rfl
  | cons c cs2 ih =>
    intro k hns
    show decComps dec der (enc c k :: encComps enc der cs2 (der k c)) k = c :: cs2
    unfold decComps
    rw [h1 c k (hns c (List.mem_cons_self c _))]
    show c :: decComps dec der (encComps enc der cs2 (der k c)) (der k c) = c :: cs2
    rw [ih (der k c) (fun x hx => hns x (List.mem_cons_of_mem c hx))]

theorem encComps_ne_nil {K : Type} (enc : BStr → K → BStr) (der : K → BStr → K) :
    ∀ (cs : List BStr) (k : K), cs ≠ [] → encComps enc der cs k ≠ [] := by
  intro cs k h
  cases cs with
  | nil => exact absurd rfl h
  | cons c cs2 => simp [encComps]

theorem encComps_noSlash {K : Type} (enc : BStr → K → BStr) (der : K → BStr → K)
    (h2 : ∀ c k, noSlash c = true → noSlash (enc c k) = true) :
    ∀ (cs : List BStr) (k : K), (∀ c ∈ cs, noSlash c = true) →
      ∀ x ∈ encComps enc der cs k, noSlash x = true := by
  intro cs
  induction cs with
  | nil => intro k _ x hx; simp [encComps] at hx
  | cons c cs2 ih =>
    intro k hns x hx
    unfold encComps at hx
    rcases List.mem_cons.mp hx with rfl | hx2
    · exact h2 c k (hns c (List.mem_cons_self c _))
    · exact ih (der k c) (fun y hy => hns y (List.mem_cons_of_mem c hy)) x hx2

/-- Claim C8: for every path (the empty path and paths with empty
components included) and every key, decrypting the encryption of the path
returns the path. The component cipher and the key derivation are the
abstract parameters of the model; the cipher is assumed to round-trip on
slash-free components and to produce slash-free ciphertext components. -/
theorem claim8_path_roundtrip {K : Type} (enc dec : BStr → K → BStr) (der : K → BStr → K)
    (h1 : ∀ c k, noSlash c = true → dec (enc c k) k = c)
    (h2 : ∀ c k, noSlash c = true → noSlash (enc c k) = true)
    (p : BStr) (key : K) :
    DecryptPath dec der (EncryptPath enc der p key) key = p := by
  unfold DecryptPath EncryptPath
  rw [splitPath_joinPath (encComps enc der (splitPath p) key)
    (encComps_ne_nil enc der (splitPath p) key (splitPath_ne_nil p))
    (encComps_noSlash enc der h2 (splitPath p) key (splitPath_noSlash p))]
  rw [decComps_encComps enc dec der h1 (splitPath p) key (splitPath_noSlash p)]
  exact joinPath_splitPath p

/-- Witness for claim8_path_roundtrip: a concrete cipher satisfying the
hypotheses (the identity on components) and a path with empty components. -/
theorem claim8_path_roundtrip_witness :
    DecryptPath (fun (c : BStr) (_ : Unit) => c) (fun (k : Unit) _ => k)
      (EncryptPath (fun (c : BStr) (_ : Unit) => c) (fun (k : Unit) _ => k)
        ('/' :: 'a' :: '/' :: '/' :: ['b']) ())
      () = '/' :: 'a' :: '/' :: '/' :: ['b'] :=
  claim8_path_roundtrip (fun (c : BStr) (_ : Unit) => c) (fun (c : BStr) (_ : Unit) => c)
    (fun (k : Unit) _ => k)
    (fun _ _ _ => rfl) (fun _ _ h => h) ('/' :: 'a' :: '/' :: '/' :: ['b']) ()

/-! ## Claim C3 : erasure round trip -/

theorem rsPoly_degree_lt {k : ℕ} {F : Type} [Field F] (col : Fin k → F) :
    (rsPoly col).degree < (k : WithBot ℕ) := by
  unfold rsPoly
  refine lt_of_le_of_lt (Polynomial.degree_sum_le _ _) ?_
  refine (Finset.sup_lt_iff ?_).mpr ?_
  · exact WithBot.bot_lt_coe k
  · intro i _
    refine lt_of_le_of_lt (Polynomial.degree_monomial_le _ _) ?_
    exact_mod_cast i.isLt

theorem rsPoly_coeff {k : ℕ} {F : Type} [Field F] (col : Fin k → F) (i : Fin k) :
    (rsPoly col).coeff (i : ℕ) = col i := by
  unfold rsPoly
  rw [Polynomial.finset_sum_coeff]
  rw [Finset.sum_eq_single i]
  · rw [Polynomial.coeff_monomial, if_pos rfl]
  · intro b _ hb
    rw [Polynomial.coeff_monomial, if_neg (fun he => hb (Fin.ext he))]
  · intro habs
    exact absurd (Finset.mem_univ i) habs

theorem rsDecodeCol_rsEncodeCol {k n : ℕ} {F : Type} [Field F] (pts : Fin n → F)
    (hinj : Function.Injective pts) (sel : Finset (Fin n)) (hcard : sel.card = k)
    (col : Fin k → F) :
    rsDecodeCol pts sel (rsEncodeCol pts col) = col := by
  funext i
  unfold rsDecodeCol
  have hpoly : rsPoly col = Lagrange.interpolate sel pts (rsEncodeCol pts col) := by
    apply Lagrange.eq_interpolate_of_eval_eq
    · exact hinj.injOn
    · rw [hcard]
      exact rsPoly_degree_lt col
    · intro j _
      rfl
  rw [← hpoly, rsPoly_coeff]

theorem rsDecodeStripe_rsEncodeStripe {k n ssize : ℕ} {F : Type} [Field F] (pts : Fin n → F)
    (hinj : Function.Injective pts) (sel : Finset (Fin n)) (hcard : sel.card = k)
    (stripe : Fin k → Fin ssize → F) :
    rsDecodeStripe pts sel (rsEncodeStripe pts stripe) = stripe := by
  funext i b
  show rsDecodeCol pts sel (rsEncodeCol pts (fun i2 => stripe i2 b)) i = stripe i b
  rw [rsDecodeCol_rsEncodeCol pts hinj sel hcard]

/-- Claim C3: for every Reed-Solomon scheme (k, n) with 1 <= k <= n <= 60,
every share size, and every stripe stream, encoding the stream into n
shares and decoding each stripe from any selection of k distinct shares
reproduces the stream exactly. The field and its n distinct evaluation
points are abstract parameters (the implementation uses GF(2^8)). -/
theorem claim3_rs_roundtrip {F : Type} [Field F] (k n ssize : ℕ)
    (hk : 1 ≤ k) (hkn : k ≤ n) (hn : n ≤ 60)
    (pts : Fin n → F) (hinj : Function.Injective pts)
    (sel : Finset (Fin n)) (hcard : sel.card = k)
    (stream : List (Fin k → Fin ssize → F)) :
    rsDecodeStream pts sel (rsEncodeStream pts stream) = stream := by
  unfold rsDecodeStream rsEncodeStream
  rw [List.map_map]
  have hcomp : List.map (rsDecodeStripe pts sel ∘ rsEncodeStripe pts) stream =
      List.map id stream :=
    List.map_congr_left (fun s _ => rsDecodeStripe_rsEncodeStripe pts hinj sel hcard s)
  rw [hcomp, List.map_id]

/-- Witness for claim3_rs_roundtrip: the (k=1, n=2) scheme over the field
with two elements, evaluation points 0 and 1, decoding from share 0. -/
theorem claim3_rs_roundtrip_witness :
    ((1 : ℕ) ≤ 1 ∧ (1 : ℕ) ≤ 2 ∧ (2 : ℕ) ≤ 60
      ∧ Function.Injective (fun i : Fin 2 => ((i : ℕ) : ZMod 2))
      ∧ ({0} : Finset (Fin 2)).card = 1)
    ∧ rsDecodeStream (fun i : Fin 2 => ((i : ℕ) : ZMod 2)) ({0} : Finset (Fin 2))
        (rsEncodeStream (fun i : Fin 2 => ((i : ℕ) : ZMod 2))
          [fun (_ : Fin 1) (_ : Fin 1) => (1 : ZMod 2)]) =
      [fun (_ : Fin 1) (_ : Fin 1) => (1 : ZMod 2)] :=
  ⟨⟨by decide, by decide, by decide, by decide, by decide⟩,
   claim3_rs_roundtrip 1 2 1 (by decide) (by decide) (by decide)
     (fun i : Fin 2 => ((i : ℕ) : ZMod 2)) (by decide) ({0} : Finset (Fin 2)) (by decide)
     [fun (_ : Fin 1) (_ : Fin 1) => (1 : ZMod 2)]⟩

/-! ## Claim C9 : upload validation -/

theorem sortStrings_pairwise (l : List BStr) : List.Pairwise LexLe (sortStrings l) := by
  haveI : IsTotal BStr LexLe := ⟨lexLe_total_pair⟩
  haveI : IsTrans BStr LexLe := ⟨lexLe_trans_pair⟩
  exact List.sorted_insertionSort LexLe l

theorem countB_perm (x : BStr) {l1 l2 : List BStr} (h : l1.Perm l2) :
    countB x l1 = countB x l2 := by
  unfold countB
  exact (h.filter _).length_eq

theorem sortStrings_countB (l : List BStr) (x : BStr) :
    countB x (sortStrings l) = countB x l :=
  countB_perm x (List.perm_insertionSort LexLe l)

theorem one_le_countB_of_mem {x : BStr} {l : List BStr} (h : x ∈ l) : 1 ≤ countB x l := by
  unfold countB
  have hmem : x ∈ l.filter (fun y => y = x) := List.mem_filter.mpr ⟨h, by simp⟩
  have hne : l.filter (fun y => y = x) ≠ [] := List.ne_nil_of_mem hmem
  have := List.length_pos.mpr hne
  omega

theorem mem_of_one_le_countB {x : BStr} {l : List BStr} (h : 1 ≤ countB x l) : x ∈ l := by
  unfold countB at h
  cases hf : l.filter (fun y => y = x) with
  | nil => rw [hf] at h; simp at h
  | cons y ys =>
    have hy : y ∈ l.filter (fun y => y = x) := by
      rw [hf]
      exact List.mem_cons_self y ys
    have hm := List.mem_filter.mp hy
    have hxy : y = x := by simpa using hm.2
    exact hxy ▸ hm.1

theorem countB_append (x : BStr) (l1 l2 : List BStr) :
    countB x (l1 ++ l2) = countB x l1 + countB x l2 := by
  unfold countB
  rw [List.filter_append, List.length_append]

theorem countB_cons (x a : BStr) (l : List BStr) :
    countB x (a :: l) = (if a = x then 1 else 0) + countB x l := by
  by_cases h : a = x
  · simp [countB, List.filter_cons, h]
    omega
  · simp [countB, List.filter_cons, h]

theorem countB_two_of_two_positions (l : List BStr) (i j : ℕ) (x : BStr)
    (hij : i < j) (hi : l[i]? = some x) (hj : l[j]? = some x) : 2 ≤ countB x l := by
  have hmem1 : x ∈ l.take (i + 1) := by
    have hx : (l.take (i + 1))[i]? = some x := by
      rw [List.getElem?_take, if_pos (Nat.lt_succ_self i)]
      exact hi
    obtain ⟨hlt, hget⟩ := List.getElem?_eq_some.mp hx
    exact hget ▸ List.getElem_mem hlt
  have hmem2 : x ∈ l.drop (i + 1) := by
    have hx : (l.drop (i + 1))[j - (i + 1)]? = some x := by
      rw [List.getElem?_drop]
      have heq : i + 1 + (j - (i + 1)) = j := by omega
      rw [heq]
      exact hj
    obtain ⟨hlt, hget⟩ := List.getElem?_eq_some.mp hx
    exact hget ▸ List.getElem_mem hlt
  have h1 := one_le_countB_of_mem hmem1
  have h2 := one_le_countB_of_mem hmem2
  have hsum : countB x (l.take (i + 1)) + countB x (l.drop (i + 1)) = countB x l := by
    rw [← countB_append]
    rw [List.take_append_drop]
  omega

theorem adjacentDistinct_false_of_dup : ∀ l : List BStr, List.Pairwise LexLe l →
    ∀ x : BStr, x ≠ [] → 2 ≤ countB x l → adjacentDistinct l = false := by
  intro l
  induction l with
  | nil =>
    intro _ x _ hcount
    simp [countB] at hcount
  | cons a rest ih =>
    intro hpw x hx hcount
    have hpw2 := List.pairwise_cons.mp hpw
    by_cases hxa : x = a
    · subst hxa
      have hrest : 1 ≤ countB x rest := by
        rw [countB_cons, if_pos rfl] at hcount
        omega
      have hmem : x ∈ rest := mem_of_one_le_countB hrest
      cases rest with
      | nil => simp at hmem
      | cons b rest2 =>
        by_cases hbx : b = x
        · show adjacentDistinct (x :: b :: rest2) = false
          unfold adjacentDistinct
          rw [if_pos ⟨hbx ▸ hx, hbx⟩]
        · exfalso
          have hxr2 : x ∈ rest2 := by
            rcases List.mem_cons.mp hmem with h | h
            · exact absurd h.symm hbx
            · exact h
          have hab : LexLe x b := hpw2.1 b (List.mem_cons_self b rest2)
          have hpw3 := List.pairwise_cons.mp hpw2.2
          have hbx2 : LexLe b x := hpw3.1 x hxr2
          exact hbx (lexLe_antisymm b x hbx2 hab)
    · have hrest : 2 ≤ countB x rest := by
        rw [countB_cons, if_neg (fun he => hxa he.symm)] at hcount
        omega
      cases rest with
      | nil => simp [countB] at hrest
      | cons b rest2 =>
        show adjacentDistinct (a :: b :: rest2) = false
        unfold adjacentDistinct
        by_cases hcond : b ≠ [] ∧ b = a
        · rw [if_pos hcond]
        · rw [if_neg hcond]
          exact ih hpw2.2 x hx hrest

/-- Two distinct positions holding the same non-empty node id make the
sorted id list fail the adjacent-distinct scan, so `unique` returns
false. -/
theorem unique_false_of_dup (nodes : List (Option PBNode)) (i j : ℕ) (ni nj : PBNode)
    (hij : i ≠ j) (hi : nodes[i]? = some (some ni)) (hj : nodes[j]? = some (some nj))
    (hid : ni.id = nj.id) (hne : ni.id ≠ []) : unique nodes = false := by
  have hmi : (nodes.map getId)[i]? = some ni.id := by
    rw [List.getElem?_map, hi]
    rfl
  have hmj : (nodes.map getId)[j]? = some ni.id := by
    rw [List.getElem?_map, hj, hid]
    rfl
  have hcount : 2 ≤ countB ni.id (nodes.map getId) := by
    rcases Nat.lt_or_ge i j with hlt | hge
    · exact countB_two_of_two_positions _ i j _ hlt hmi hmj
    · have hlt : j < i := by omega
      exact countB_two_of_two_positions _ j i _ hlt hmj hmi
  have hlen : 2 ≤ nodes.length := by
    obtain ⟨hi2, _⟩ := List.getElem?_eq_some.mp hi
    obtain ⟨hj2, _⟩ := List.getElem?_eq_some.mp hj
    omega
  have hsorted : 2 ≤ countB ni.id (sortStrings (nodes.map getId)) := by
    rw [sortStrings_countB]
    exact hcount
  unfold unique
  rw [if_neg (by omega)]
  exact adjacentDistinct_false_of_dup _ (sortStrings_pairwise _) ni.id hne hsorted

/-- Claim C9: a Put whose node list length does not match the total count
of the erasure scheme, or that contains two entries sharing the same
non-empty node id, returns a validation error with no node dialed and no
piece stored. -/
theorem claim9_validation (nodes : List (Option PBNode)) (total r : Nat)
    (outcome : Nat → Option GoErr) (ctxDone : Bool) :
    (nodes.length ≠ total →
      ecPut nodes total r outcome ctxDone = ⟨.error .badNodeCount, [], [], []⟩)
    ∧ (∀ (i j : ℕ) (ni nj : PBNode), i ≠ j →
        nodes[i]? = some (some ni) → nodes[j]? = some (some nj) →
        ni.id = nj.id → ni.id ≠ [] →
        (ecPut nodes total r outcome ctxDone).dialed = []
        ∧ (ecPut nodes total r outcome ctxDone).stored = []
        ∧ ((ecPut nodes total r outcome ctxDone).result = .error .badNodeCount
          ∨ (ecPut nodes total r outcome ctxDone).result = .error .duplicateNodes)) := by
  constructor
  · intro h
    unfold ecPut
    rw [if_pos h]
  · intro i j ni nj hij hi hj hid hne
    have huniq := unique_false_of_dup nodes i j ni nj hij hi hj hid hne
    by_cases hlen : nodes.length ≠ total
    · unfold ecPut
      rw [if_pos hlen]
      exact ⟨rfl, rfl, Or.inl rfl⟩
    · unfold ecPut
      rw [if_neg hlen, if_pos huniq]
      exact ⟨rfl, rfl, Or.inr rfl⟩

/-- Witness for claim9_validation: a four-node list where slots 0 and 2
carry the same node. -/
theorem claim9_validation_witness :
    ((0 : ℕ) ≠ 2
      ∧ [some (wNode 0), some (wNode 1), some (wNode 0), some (wNode 3)][0]? =
          some (some (wNode 0))
      ∧ [some (wNode 0), some (wNode 1), some (wNode 0), some (wNode 3)][2]? =
          some (some (wNode 0))
      ∧ (wNode 0).id ≠ [])
    ∧ ((ecPut [some (wNode 0), some (wNode 1), some (wNode 0), some (wNode 3)] 4 3 wOut1
          false).dialed = []
      ∧ (ecPut [some (wNode 0), some (wNode 1), some (wNode 0), some (wNode 3)] 4 3 wOut1
          false).stored = []
      ∧ ((ecPut [some (wNode 0), some (wNode 1), some (wNode 0), some (wNode 3)] 4 3 wOut1
            false).result = .error .badNodeCount
        ∨ (ecPut [some (wNode 0), some (wNode 1), some (wNode 0), some (wNode 3)] 4 3 wOut1
            false).result = .error .duplicateNodes)) :=
  ⟨⟨by decide, by decide, by decide, by decide⟩,
   (claim9_validation [some (wNode 0), some (wNode 1), some (wNode 0), some (wNode 3)] 4 3
      wOut1 false).2 0 2 (wNode 0) (wNode 0) (by decide) (by decide) (by decide) rfl
      (by decide)⟩

/-! ## Claim C4 : pointer listing — order and delimiter infrastructure -/

theorem lexLt_cons_true_iff (x y : Char) (xs ys : BStr) :
    lexLt (x :: xs) (y :: ys) = true ↔ (x < y ∨ (x = y ∧ lexLt xs ys = true)) := by
  rw [lexLt_cons]
  rcases lt_trichotomy x y with h | h | h
  · rw [if_pos h]
    simp [h]
  · subst h
    rw [if_neg (lt_irrefl x), if_neg (lt_irrefl x)]
    simp [lt_irrefl]
  · rw [if_neg (lt_asymm h), if_pos h]
    constructor
    · intro hh
      exact absurd hh (by simp)
    · rintro (hlt | ⟨rfl, _⟩)
      · exact absurd h (lt_asymm hlt)
      · exact absurd h (lt_irrefl x)

theorem lexLt_append_self_false (a t : BStr) : lexLt (a ++ t) a = false := by
  induction a with
  | nil => cases t <;> rfl
  | cons x xs ih =>
    rw [List.cons_append, lexLt_cons, if_neg (lt_irrefl x), if_neg (lt_irrefl x)]
    exact ih

theorem lexLt_append_self_true (a : BStr) (t : BStr) (ht : t ≠ []) :
    lexLt a (a ++ t) = true := by
  induction a with
  | nil =>
    cases t with
    | nil => exact absurd rfl ht
    | cons y ys => rfl
  | cons x xs ih =>
    rw [List.cons_append, lexLt_cons, if_neg (lt_irrefl x), if_neg (lt_irrefl x)]
    exact ih

theorem lexLt_append_common (pfx a b : BStr) :
    lexLt (pfx ++ a) (pfx ++ b) = lexLt a b := by
  induction pfx with
  | nil => rfl
  | cons x xs ih =>
    rw [List.cons_append, List.cons_append, lexLt_cons, if_neg (lt_irrefl x),
      if_neg (lt_irrefl x)]
    exact ih

theorem isPrefixOf_true_iff : ∀ (a b : BStr), a.isPrefixOf b = true ↔ ∃ t, b = a ++ t := by
  intro a
  induction a with
  | nil =>
    intro b
    simp [List.isPrefixOf]
  | cons x xs ih =>
    intro b
    cases b with
    | nil =>
      simp [List.isPrefixOf]
    | cons y ys =>
      rw [List.isPrefixOf]
      constructor
      · intro h
        rw [Bool.and_eq_true] at h
        have hxy : x = y := by simpa using h.1
        obtain ⟨t, ht⟩ := (ih ys).mp h.2
        exact ⟨t, by rw [List.cons_append, ← hxy, ht]⟩
      · rintro ⟨t, ht⟩
        rw [List.cons_append] at ht
        injection ht with h1 h2
        rw [Bool.and_eq_true]
        exact ⟨by simpa using h1.symm, (ih ys).mpr ⟨t, h2⟩⟩

theorem lexLt_of_proper_append (c p : BStr) (t : BStr) (hp : p = c ++ t) (ht : t ≠ []) :
    lexLt c p = true := by
  rw [hp]
  exact lexLt_append_self_true c t ht

/-- Betweenness: everything strictly between two extensions of `c` is an
extension of `c`. -/
theorem between_append : ∀ (c s u x : BStr),
    lexLt (c ++ s) x = true → lexLt x (c ++ u) = true → ∃ t, x = c ++ t := by
  intro c
  induction c with
  | nil =>
    intro s u x _ _
    exact ⟨x, rfl⟩
  | cons ch c2 ih =>
    intro s u x h1 h2
    cases x with
    | nil =>
      rw [List.cons_append] at h1
      simp [lexLt] at h1
    | cons xh x2 =>
      rw [List.cons_append] at h1 h2
      rw [lexLt_cons_true_iff] at h1 h2
      rcases h1 with hlt1 | ⟨heq1, hrec1⟩
      · rcases h2 with hlt2 | ⟨heq2, _⟩
        · exact absurd hlt2 (lt_asymm hlt1)
        · exact absurd hlt1 (heq2 ▸ lt_irrefl xh)
      · rcases h2 with hlt2 | ⟨heq2, hrec2⟩
        · exact absurd hlt2 (heq1 ▸ lt_irrefl ch)
        · obtain ⟨t, ht⟩ := ih s u x2 hrec1 hrec2
          exact ⟨t, by rw [List.cons_append, ← heq1, ht]⟩

/-! firstComp characterization -/

theorem firstComp_decomp : ∀ (p c : BStr), firstComp p = some c →
    ∃ pre post, p = pre ++ '/' :: post ∧ (∀ ch ∈ pre, ch ≠ '/') ∧ c = pre ++ ['/'] := by
  intro p
  induction p with
  | nil =>
    intro c hc
    simp [firstComp] at hc
  | cons ch rest ih =>
    intro c hc
    unfold firstComp at hc
    by_cases hch : ch = '/'
    · rw [if_pos hch] at hc
      injection hc with hc2
      exact ⟨[], rest, by rw [hch]; rfl, by simp, hc2.symm⟩
    · rw [if_neg hch] at hc
      cases hrest : firstComp rest with
      | none => simp [hrest] at hc
      | some c2 =>
        rw [hrest] at hc
        have hc3 : ch :: c2 = c := by
          have := hc
          simp only [Option.map] at this
          injection this
        clear hc
        have hc := hc3
        obtain ⟨pre2, post2, hp2, hns2, hc2⟩ := ih c2 hrest
        refine ⟨ch :: pre2, post2, by rw [List.cons_append, ← hp2], ?_, ?_⟩
        · intro x hx
          rcases List.mem_cons.mp hx with rfl | hx2
          · exact hch
          · exact hns2 x hx2
        · rw [← hc, hc2, List.cons_append]

theorem firstComp_of_decomp : ∀ (pre t : BStr), (∀ ch ∈ pre, ch ≠ '/') →
    firstComp (pre ++ '/' :: t) = some (pre ++ ['/']) := by
  intro pre
  induction pre with
  | nil => intro t _; rfl
  | cons ch pre2 ih =>
    intro t hns
    show firstComp (ch :: (pre2 ++ '/' :: t)) = some (ch :: (pre2 ++ ['/']))
    unfold firstComp
    rw [if_neg (hns ch (List.mem_cons_self ch pre2))]
    rw [ih t (fun x hx => hns x (List.mem_cons_of_mem ch hx))]
    rfl

theorem firstComp_none_noSlash : ∀ p : BStr, firstComp p = none → ∀ ch ∈ p, ch ≠ '/' := by
  intro p
  induction p with
  | nil =>
    intro _ ch hch
    simp at hch
  | cons c rest ih =>
    intro h ch hch
    unfold firstComp at h
    by_cases hc : c = '/'
    · rw [if_pos hc] at h
      simp at h
    · rw [if_neg hc] at h
      cases hrest : firstComp rest with
      | some c2 => rw [hrest] at h; simp at h
      | none =>
        rcases List.mem_cons.mp hch with rfl | hch2
        · exact hc
        · exact ih hrest ch hch2

theorem firstComp_isPre : ∀ (p c : BStr), firstComp p = some c → ∃ t, p = c ++ t := by
  intro p c hc
  obtain ⟨pre, post, hp, _, hcv⟩ := firstComp_decomp p c hc
  refine ⟨post, ?_⟩
  rw [hp, hcv]
  simp

/-- A slash-free path below some extension of a slash-terminated component
is below the component itself. -/
theorem lexLt_noSlash_vs_comp : ∀ (p pre post : BStr),
    (∀ ch ∈ p, ch ≠ '/') → (∀ ch ∈ pre, ch ≠ '/') →
    lexLt p (pre ++ '/' :: post) = true → lexLt p (pre ++ ['/']) = true := by
  intro p
  induction p with
  | nil =>
    intro pre post _ _ _
    cases pre <;> rfl
  | cons a p2 ih =>
    intro pre post hp hpre h
    cases pre with
    | nil =>
      rw [List.nil_append] at h ⊢
      rw [lexLt_cons_true_iff] at h ⊢
      rcases h with hlt | ⟨heq, _⟩
      · exact Or.inl hlt
      · exact absurd heq (hp a (List.mem_cons_self _ _))
    | cons b pre2 =>
      rw [List.cons_append] at h ⊢
      rw [lexLt_cons_true_iff] at h ⊢
      rcases h with hlt | ⟨heq, hrec⟩
      · exact Or.inl hlt
      · refine Or.inr ⟨heq, ?_⟩
        exact ih pre2 post (fun x hx => hp x (List.mem_cons_of_mem a hx))
          (fun x hx => hpre x (List.mem_cons_of_mem b hx)) hrec

/-- Comparison of two slash-terminated first components, when the second
key does not extend the first component. -/
theorem lexLt_comp_comp : ∀ (pre pre2 post post2 : BStr),
    (∀ ch ∈ pre, ch ≠ '/') → (∀ ch ∈ pre2, ch ≠ '/') →
    lexLt (pre ++ '/' :: post) (pre2 ++ '/' :: post2) = true →
    (¬ ∃ t, pre2 ++ '/' :: post2 = (pre ++ ['/']) ++ t) →
    lexLt (pre ++ ['/']) (pre2 ++ ['/']) = true := by
  intro pre
  induction pre with
  | nil =>
    intro pre2 post post2 _ hpre2 h hnp
    cases pre2 with
    | nil => exact absurd ⟨post2, by simp⟩ hnp
    | cons b pre2b =>
      rw [List.nil_append] at h ⊢
      rw [List.cons_append] at h ⊢
      rw [lexLt_cons_true_iff] at h ⊢
      rcases h with hlt | ⟨heq, _⟩
      · exact Or.inl hlt
      · exact absurd heq.symm (hpre2 b (List.mem_cons_self _ _))
  | cons a preA ih =>
    intro pre2 post post2 hpre hpre2 h hnp
    cases pre2 with
    | nil =>
      rw [List.nil_append] at h ⊢
      rw [List.cons_append] at h ⊢
      rw [lexLt_cons_true_iff] at h ⊢
      rcases h with hlt | ⟨heq, _⟩
      · exact Or.inl hlt
      · exact absurd heq (hpre a (List.mem_cons_self _ _))
    | cons b pre2B =>
      rw [List.cons_append, List.cons_append] at h ⊢
      rw [lexLt_cons_true_iff] at h ⊢
      rcases h with hlt | ⟨heq, hrec⟩
      · exact Or.inl hlt
      · refine Or.inr ⟨heq, ?_⟩
        refine ih pre2B post post2 (fun x hx => hpre x (List.mem_cons_of_mem a hx))
          (fun x hx => hpre2 x (List.mem_cons_of_mem b hx)) hrec ?_
        rintro ⟨t, ht⟩
        refine hnp ⟨t, ?_⟩
        subst heq
        rw [List.cons_append, ht]
        rw [List.cons_append, List.cons_append]

/-- In a sorted tail whose elements all lie above an extension of `c`, the
dropWhile scan leaves no further extension of `c`. -/
theorem dropWhile_no_pre : ∀ (l : List BStr) (p c s : BStr),
    List.Pairwise (fun a b => lexLt a b = true) l →
    (∀ q ∈ l, lexLt p q = true) → p = c ++ s →
    ∀ q ∈ l.dropWhile (fun q => c.isPrefixOf q), c.isPrefixOf q = false := by
  intro l
  induction l with
  | nil =>
    intro p c s _ _ _ q hq
    simp at hq
  | cons x xs ih =>
    intro p c s hpw hbound hp q hq
    rw [List.dropWhile_cons] at hq
    by_cases hx : c.isPrefixOf x = true
    · rw [if_pos hx] at hq
      exact ih p c s (List.pairwise_cons.mp hpw).2
        (fun r hr => hbound r (List.mem_cons_of_mem x hr)) hp q hq
    · rw [if_neg hx] at hq
      rcases List.mem_cons.mp hq with rfl | hq2
      · cases hcq : c.isPrefixOf q with
        | false => rfl
        | true => exact absurd hcq hx
      · cases hcq : c.isPrefixOf q with
        | false => rfl
        | true =>
          exfalso
          obtain ⟨tq, htq⟩ := (isPrefixOf_true_iff c q).mp hcq
          have hpx : lexLt p x = true := hbound x (List.mem_cons_self x xs)
          have hxq : lexLt x q = true := (List.pairwise_cons.mp hpw).1 q hq2
          obtain ⟨tx, htx⟩ := between_append c s tq x (by rw [← hp]; exact hpx)
            (by rw [← htq]; exact hxq)
          exact hx ((isPrefixOf_true_iff c x).mpr ⟨tx, htx⟩)

theorem mem_dropWhile_of_neg {α : Type} (p : α → Bool) :
    ∀ (l : List α) (x : α), x ∈ l → p x = false → x ∈ l.dropWhile p := by
  intro l
  induction l with
  | nil =>
    intro x hx _
    simp at hx
  | cons a as ih =>
    intro x hx hpx
    rw [List.dropWhile_cons]
    by_cases ha : p a = true
    · rw [if_pos ha]
      rcases List.mem_cons.mp hx with rfl | hx2
      · rw [ha] at hpx
        exact absurd hpx (by simp)
      · exact ih x hx2 hpx
    · rw [if_neg ha]
      exact hx

theorem collapseFuel_cons_none (f : Nat) (p : BStr) (rest : List BStr)
    (h : firstComp p = none) :
    collapseFuel (f + 1) (p :: rest) = ⟨p, false⟩ :: collapseFuel f rest := by
  simp only [collapseFuel]
  rw [h]

theorem collapseFuel_cons_some (f : Nat) (p c : BStr) (rest : List BStr)
    (h : firstComp p = some c) :
    collapseFuel (f + 1) (p :: rest) =
      ⟨c, true⟩ :: collapseFuel f (rest.dropWhile (fun q => c.isPrefixOf q)) := by
  simp only [collapseFuel]
  rw [h]

/-- Every emitted item is either a delimiter-free key of the scan, or the
first slash-bounded component of some key of the scan, tagged as a
directory entry. -/
theorem collapseFuel_mem : ∀ (fuel : Nat) (l : List BStr), l.length ≤ fuel →
    ∀ it ∈ collapseFuel fuel l, ∃ q ∈ l,
      (it.path = q ∧ it.isDir = false ∧ firstComp q = none)
      ∨ (firstComp q = some it.path ∧ it.isDir = true) := by
  intro fuel
  induction fuel with
  | zero =>
    intro l _ it hit
    simp [collapseFuel] at hit
  | succ f ih =>
    intro l hlen it hit
    cases l with
    | nil => simp [collapseFuel] at hit
    | cons p rest =>
      have hrest_len : rest.length ≤ f := by
        simp at hlen
        omega
      cases hfc : firstComp p with
      | none =>
        rw [collapseFuel_cons_none f p rest hfc] at hit
        rcases List.mem_cons.mp hit with rfl | hit2
        · exact ⟨p, List.mem_cons_self _ _, Or.inl ⟨rfl, rfl, hfc⟩⟩
        · obtain ⟨q, hq, hcase⟩ := ih rest hrest_len it hit2
          exact ⟨q, List.mem_cons_of_mem p hq, hcase⟩
      | some c =>
        rw [collapseFuel_cons_some f p c rest hfc] at hit
        rcases List.mem_cons.mp hit with rfl | hit2
        · exact ⟨p, List.mem_cons_self _ _, Or.inr ⟨hfc, rfl⟩⟩
        · have hsuffix : rest.dropWhile (fun q => c.isPrefixOf q) <:+ rest :=
            List.dropWhile_suffix _
          have hsub := hsuffix.sublist
          have hlen2 : (rest.dropWhile (fun q => c.isPrefixOf q)).length ≤ f :=
            le_trans hsub.length_le hrest_len
          obtain ⟨q, hq, hcase⟩ := ih _ hlen2 it hit2
          exact ⟨q, List.mem_cons_of_mem p (List.Sublist.mem hq hsub), hcase⟩

/-- Every key of the scan is represented in the collapsed output: by
itself when delimiter-free, otherwise by its first slash-bounded component
as a directory entry. -/
theorem collapseFuel_complete : ∀ (fuel : Nat) (l : List BStr), l.length ≤ fuel →
    ∀ q ∈ l, ∃ it ∈ collapseFuel fuel l,
      (firstComp q = none ∧ it = ⟨q, false⟩)
      ∨ (∃ c, firstComp q = some c ∧ it = ⟨c, true⟩) := by
  intro fuel
  induction fuel with
  | zero =>
    intro l hlen q hq
    cases l with
    | nil => simp at hq
    | cons a as => simp at hlen
  | succ f ih =>
    intro l hlen q hq
    cases l with
    | nil => simp at hq
    | cons p rest =>
      have hrest_len : rest.length ≤ f := by
        simp at hlen
        omega
      cases hfc : firstComp p with
      | none =>
        rw [collapseFuel_cons_none f p rest hfc]
        rcases List.mem_cons.mp hq with rfl | hq2
        · exact ⟨⟨q, false⟩, List.mem_cons_self _ _, Or.inl ⟨hfc, rfl⟩⟩
        · obtain ⟨it, hit, hcase⟩ := ih rest hrest_len q hq2
          exact ⟨it, List.mem_cons_of_mem _ hit, hcase⟩
      | some c =>
        obtain ⟨pre, post, hpd, hpre, hcv⟩ := firstComp_decomp p c hfc
        rw [collapseFuel_cons_some f p c rest hfc]
        rcases List.mem_cons.mp hq with rfl | hq2
        · exact ⟨⟨c, true⟩, List.mem_cons_self _ _, Or.inr ⟨c, hfc, rfl⟩⟩
        · by_cases hcq : c.isPrefixOf q = true
          · obtain ⟨t, ht⟩ := (isPrefixOf_true_iff c q).mp hcq
            have hfq : firstComp q = some c := by
              have hq3 : q = pre ++ '/' :: t := by
                rw [ht, hcv]
                simp
              rw [hq3, firstComp_of_decomp pre t hpre, ← hcv]
            exact ⟨⟨c, true⟩, List.mem_cons_self _ _, Or.inr ⟨c, hfq, rfl⟩⟩
          · have hq3 : q ∈ rest.dropWhile (fun r => c.isPrefixOf r) := by
              refine mem_dropWhile_of_neg _ rest q hq2 ?_
              cases h2 : c.isPrefixOf q with
              | false => rfl
              | true => exact absurd h2 hcq
            have hsuffix : rest.dropWhile (fun r => c.isPrefixOf r) <:+ rest :=
              List.dropWhile_suffix _
            have hsub := hsuffix.sublist
            have hlen2 : (rest.dropWhile (fun r => c.isPrefixOf r)).length ≤ f :=
              le_trans hsub.length_le hrest_len
            obtain ⟨it, hit, hcase⟩ := ih _ hlen2 q hq3
            exact ⟨it, List.mem_cons_of_mem _ hit, hcase⟩

/-- The collapsed output of a strictly ascending scan is strictly
ascending. -/
theorem collapseFuel_pairwise : ∀ (fuel : Nat) (l : List BStr), l.length ≤ fuel →
    List.Pairwise (fun a b => lexLt a b = true) l →
    List.Pairwise (fun i1 i2 : LItem => lexLt i1.path i2.path = true)
      (collapseFuel fuel l) := by
  intro fuel
  induction fuel with
  | zero =>
    intro l _ _
    exact List.Pairwise.nil
  | succ f ih =>
    intro l hlen hpw
    cases l with
    | nil => exact List.Pairwise.nil
    | cons p rest =>
      have hrest_len : rest.length ≤ f := by
        simp at hlen
        omega
      have hpw2 := List.pairwise_cons.mp hpw
      cases hfc : firstComp p with
      | none =>
        rw [collapseFuel_cons_none f p rest hfc]
        rw [List.pairwise_cons]
        constructor
        · intro it hit
          obtain ⟨q, hq, hcase⟩ := collapseFuel_mem f rest hrest_len it hit
          rcases hcase with ⟨hpath, _, _⟩ | ⟨hfq, _⟩
          · rw [hpath]
            exact hpw2.1 q hq
          · obtain ⟨pre2, post2, hq2, hpre2, hc2⟩ := firstComp_decomp q _ hfq
            have hnsp : ∀ ch ∈ p, ch ≠ '/' := firstComp_none_noSlash p hfc
            have hmain := lexLt_noSlash_vs_comp p pre2 post2 hnsp hpre2
              (by rw [← hq2]; exact hpw2.1 q hq)
            show lexLt p it.path = true
            rw [hc2]
            exact hmain
        · exact ih rest hrest_len hpw2.2
      | some c =>
        obtain ⟨pre, post, hpd, hpre, hcv⟩ := firstComp_decomp p c hfc
        have hsuffix : rest.dropWhile (fun q => c.isPrefixOf q) <:+ rest :=
          List.dropWhile_suffix _
        have hsub := hsuffix.sublist
        have hlen2 : (rest.dropWhile (fun q => c.isPrefixOf q)).length ≤ f :=
          le_trans hsub.length_le hrest_len
        have hpwrest2 := List.Pairwise.sublist hsub hpw2.2
        have hnox : ∀ q ∈ rest.dropWhile (fun q => c.isPrefixOf q),
            c.isPrefixOf q = false := by
          refine dropWhile_no_pre rest p c post hpw2.2 hpw2.1 ?_
          rw [hpd, hcv]
          simp
        rw [collapseFuel_cons_some f p c rest hfc]
        rw [List.pairwise_cons]
        constructor
        · intro it hit
          obtain ⟨q, hq, hcase⟩ := collapseFuel_mem f _ hlen2 it hit
          have hqrest : q ∈ rest := List.Sublist.mem hq hsub
          have hpq : lexLt p q = true := hpw2.1 q hqrest
          have hnpq : c.isPrefixOf q = false := hnox q hq
          show lexLt c it.path = true
          rcases hcase with ⟨hpath, _, _⟩ | ⟨hfq, _⟩
          · rw [hpath]
            cases post with
            | nil =>
              have hpc : p = c := by
                rw [hpd, hcv]
              rw [← hpc]
              exact hpq
            | cons d post2 =>
              have hcp : p = c ++ (d :: post2) := by
                rw [hpd, hcv]
                simp
              exact lexLt_trans c p q
                (lexLt_of_proper_append c p (d :: post2) hcp (by simp)) hpq
          · obtain ⟨pre2, post2, hq2, hpre2, hc2⟩ := firstComp_decomp q _ hfq
            rw [hc2, hcv]
            refine lexLt_comp_comp pre pre2 post post2 hpre hpre2 ?_ ?_
            · rw [← hpd, ← hq2]
              exact hpq
            · rintro ⟨t, ht⟩
              have hpq2 : c.isPrefixOf q = true := by
                refine (isPrefixOf_true_iff c q).mpr ⟨t, ?_⟩
                rw [hq2, ht, hcv]
              rw [hpq2] at hnpq
              exact absurd hnpq (by simp)
        · exact ih _ hlen2 hpwrest2

/-- The scan preserves the strict ascending order of the stored keys. -/
theorem listScan_pairwise (keys : List BStr) (pfx sa eb : BStr)
    (hkeys : List.Pairwise (fun a b => lexLt a b = true) keys) :
    List.Pairwise (fun a b => lexLt a b = true) (listScan keys pfx sa eb) := by
  unfold listScan
  refine List.Pairwise.filter _ ?_
  rw [List.pairwise_map]
  have hfiltered := List.Pairwise.filter (fun k => pfx.isPrefixOf k) hkeys
  refine List.Pairwise.imp_of_mem ?_ hfiltered
  intro a b ha hb hab
  obtain ⟨ta, hta⟩ := (isPrefixOf_true_iff pfx a).mp (List.mem_filter.mp ha).2
  obtain ⟨tb, htb⟩ := (isPrefixOf_true_iff pfx b).mp (List.mem_filter.mp hb).2
  rw [hta, htb, List.drop_left, List.drop_left]
  rw [hta, htb, lexLt_append_common] at hab
  exact hab

/-- Every scanned key comes from a stored key under the query prefix, with
the prefix stripped, and satisfies the exclusive bounds. -/
theorem listScan_mem (keys : List BStr) (pfx sa eb x : BStr)
    (hx : x ∈ listScan keys pfx sa eb) :
    (pfx ++ x) ∈ keys
    ∧ (sa ≠ [] → lexLt sa x = true) ∧ (eb ≠ [] → lexLt x eb = true) := by
  unfold listScan at hx
  have h1 := List.mem_filter.mp hx
  obtain ⟨q, hq, hdrop⟩ := List.mem_map.mp h1.1
  have h2 := List.mem_filter.mp hq
  obtain ⟨t, ht⟩ := (isPrefixOf_true_iff pfx q).mp h2.2
  have hxt : x = t := by
    rw [← hdrop, ht, List.drop_left]
  have hkey : pfx ++ x = q := by
    rw [hxt, ht]
  have hb := h1.2
  rw [Bool.and_eq_true] at hb
  obtain ⟨hb1, hb2⟩ := hb
  rw [Bool.or_eq_true] at hb1 hb2
  refine ⟨hkey ▸ h2.1, ?_, ?_⟩
  · intro hsa
    rcases hb1 with he | hlt
    · exfalso
      apply hsa
      cases sa with
      | nil => rfl
      | cons a as => simp [List.isEmpty] at he
    · exact hlt
  · intro heb
    rcases hb2 with he | hlt
    · exfalso
      apply heb
      cases eb with
      | nil => rfl
      | cons a as => simp [List.isEmpty] at he
    · exact hlt

/-- The items of the unlimited listing. -/
theorem listKeys_zero_fst (keys : List BStr) (pfx sa eb : BStr) (recursive : Bool) :
    (listKeys keys pfx sa eb recursive 0).1 =
      (if recursive then (listScan keys pfx sa eb).map (fun k => (⟨k, false⟩ : LItem))
        else collapse (listScan keys pfx sa eb)) := by
  unfold listKeys
  simp

/-- Claim C4 (amended): Server.List first normalizes a non-empty query
prefix by appending the delimiter when its last byte is not already the
delimiter; the listing then emits items in ascending lexicographic byte
order; returned paths have the NORMALIZED prefix stripped (not the raw
query prefix) and respect start_after as an exclusive lower bound and
end_before as an exclusive upper bound; when non-recursive, each maximal
run of scanned keys sharing the next slash-bounded component is collapsed
into a single directory entry and skipped, every emitted entry being
either a delimiter-free scanned key or the first component of a scanned
key, and every scanned key being represented; and more=true is returned
exactly when the scan under the normalized prefix was truncated by the
limit. -/
theorem claim4_amended (keys : List BStr) (pfx sa eb : BStr) (recursive : Bool)
    (limit : Nat) :
    (List.Pairwise (fun a b => lexLt a b = true) keys →
      List.Pairwise (fun i1 i2 : LItem => lexLt i1.path i2.path = true)
        (ServerList keys pfx sa eb recursive limit).1)
    ∧ (∀ it ∈ (ServerList keys pfx sa eb true limit).1,
        (normPfx pfx ++ it.path) ∈ keys ∧ it.isDir = false
        ∧ (sa ≠ [] → lexLt sa it.path = true) ∧ (eb ≠ [] → lexLt it.path eb = true))
    ∧ (∀ it ∈ (ServerList keys pfx sa eb false 0).1,
        ∃ q ∈ listScan keys (normPfx pfx) sa eb,
        (it.path = q ∧ it.isDir = false ∧ firstComp q = none)
        ∨ (firstComp q = some it.path ∧ it.isDir = true))
    ∧ (∀ q ∈ listScan keys (normPfx pfx) sa eb,
        ∃ it ∈ (ServerList keys pfx sa eb false 0).1,
        (firstComp q = none ∧ it = ⟨q, false⟩)
        ∨ (∃ c, firstComp q = some c ∧ it = ⟨c, true⟩))
    ∧ ((ServerList keys pfx sa eb recursive limit).2 = true ↔
        (limit ≠ 0 ∧ limit < (ServerList keys pfx sa eb recursive 0).1.length)) := by
  unfold ServerList
  refine ⟨?_, ?_, ?_, ?_, ?_⟩
  · intro hkeys
    have hscan := listScan_pairwise keys (normPfx pfx) sa eb hkeys
    cases recursive with
    | false =>
      have hitems : List.Pairwise (fun i1 i2 : LItem => lexLt i1.path i2.path = true)
          (collapse (listScan keys (normPfx pfx) sa eb)) :=
        collapseFuel_pairwise _ _ (le_refl _) hscan
      simp only [listKeys, Bool.false_eq_true, if_false]
      split_ifs with h
      · exact List.Pairwise.sublist (List.take_sublist _ _) hitems
      · exact hitems
    | true =>
      have hitems : List.Pairwise (fun i1 i2 : LItem => lexLt i1.path i2.path = true)
          ((listScan keys (normPfx pfx) sa eb).map (fun k => (⟨k, false⟩ : LItem))) := by
        rw [List.pairwise_map]
        exact hscan.imp (fun h => h)
      simp only [listKeys, if_true]
      split_ifs with h
      · exact List.Pairwise.sublist (List.take_sublist _ _) hitems
      · exact hitems
  · intro it hit
    have hit2 : it ∈ (listScan keys (normPfx pfx) sa eb).map
        (fun k => (⟨k, false⟩ : LItem)) := by
      simp only [listKeys, if_true] at hit
      split_ifs at hit with h
      · exact List.Sublist.mem hit (List.take_sublist _ _)
      · exact hit
    obtain ⟨k, hk, hke⟩ := List.mem_map.mp hit2
    have hp := listScan_mem keys (normPfx pfx) sa eb k hk
    rw [← hke]
    exact ⟨hp.1, rfl, hp.2.1, hp.2.2⟩
  · intro it hit
    rw [listKeys_zero_fst] at hit
    simp only [Bool.false_eq_true, if_false] at hit
    exact collapseFuel_mem _ _ (le_refl _) it hit
  · intro q hq
    rw [listKeys_zero_fst]
    simp only [Bool.false_eq_true, if_false]
    exact collapseFuel_complete _ _ (le_refl _) q hq
  · rw [listKeys_zero_fst]
    cases recursive with
    | false =>
      simp only [listKeys, Bool.false_eq_true, if_false]
      split_ifs with h
      · simpa using h
      · simpa using h
    | true =>
      simp only [listKeys, if_true]
      split_ifs with h
      · simpa using h
      · simpa using h

/-- Witness for claim4_amended at the key set of the pointerdb List test,
with the concrete outputs of every TestServiceList case reproduced,
including the normalized-prefix case (request prefix "müs" yields no items
and more=false, since no stored key starts with "müs/"). -/
theorem claim4_amended_witness :
    (List.Pairwise (fun a b => lexLt a b = true) wKeys
      ∧ List.Pairwise (fun i1 i2 : LItem => lexLt i1.path i2.path = true)
        (ServerList wKeys [] [] [] false 0).1)
    ∧ normPfx "müs".data = "müs/".data
    ∧ normPfx "müsic/".data = "müsic/".data
    ∧ ServerList wKeys "müs".data [] "ic/söng4.mp3".data true 1 = ([], false)
    ∧ (ServerList wKeys [] [] [] false 0).1 =
        [⟨"müsic".data, false⟩, ⟨"müsic/".data, true⟩, ⟨"sample.😶".data, false⟩,
         ⟨"ビデオ/".data, true⟩]
    ∧ (ServerList wKeys [] [] [] true 3).1 =
        [⟨"müsic".data, false⟩, ⟨"müsic/album/söng3.mp3".data, false⟩,
         ⟨"müsic/söng1.mp3".data, false⟩]
    ∧ (ServerList wKeys [] [] [] true 3).2 = true
    ∧ (ServerList wKeys "müsic/".data [] [] true 0).1 =
        [⟨"album/söng3.mp3".data, false⟩, ⟨"söng1.mp3".data, false⟩,
         ⟨"söng2.mp3".data, false⟩, ⟨"söng4.mp3".data, false⟩]
    ∧ (ServerList wKeys "müsic/".data "album/söng3.mp3".data [] true 0).1 =
        [⟨"söng1.mp3".data, false⟩, ⟨"söng2.mp3".data, false⟩,
         ⟨"söng4.mp3".data, false⟩]
    ∧ (ServerList wKeys "müsic/".data [] [] false 0).1 =
        [⟨"album/".data, true⟩, ⟨"söng1.mp3".data, false⟩, ⟨"söng2.mp3".data, false⟩,
         ⟨"söng4.mp3".data, false⟩]
    ∧ (ServerList wKeys "müsic".data [] [] false 0).1 =
        [⟨"album/".data, true⟩, ⟨"söng1.mp3".data, false⟩, ⟨"söng2.mp3".data, false⟩,
         ⟨"söng4.mp3".data, false⟩]
    ∧ (ServerList wKeys "müsic/".data "söng1.mp3".data [] false 0).1 =
        [⟨"söng2.mp3".data, false⟩, ⟨"söng4.mp3".data, false⟩]
    ∧ (ServerList wKeys "müsic/".data [] "söng4.mp3".data false 0).1 =
        [⟨"album/".data, true⟩, ⟨"söng1.mp3".data, false⟩, ⟨"söng2.mp3".data, false⟩]
    ∧ (ServerList wKeys [] [] "ビデオ".data false 0).1 =
        [⟨"müsic".data, false⟩, ⟨"müsic/".data, true⟩, ⟨"sample.😶".data, false⟩]
    ∧ (ServerList wKeys2 [] [] [] false 0).1 =
        [⟨"a".data, false⟩, ⟨"a/".data, true⟩, ⟨"aa".data, false⟩, ⟨"b".data, false⟩]
    ∧ (ServerList wKeys2 "a/".data [] [] false 0).1 =
        [⟨"xa".data, false⟩, ⟨"xb".data, false⟩] :=
  ⟨⟨by decide, (claim4_amended wKeys [] [] [] false 0).1 (by decide)⟩,
   by decide, by decide, by decide, by decide, by decide, by decide, by decide,
   by decide, by decide, by decide, by decide, by decide, by decide, by decide,
   by decide⟩

/-- Counterexample to the original claim C4: at the stored keys of the
pointerdb List test, with request prefix "müs", recursive, end_before
"ic/söng4.mp3" and limit 1 (the last TestServiceList case), the claim read
literally — the raw query prefix stripped from the matching keys, more=true
exactly on truncation — yields the single item "ic" with more=true, while
Server.List first normalizes the prefix to "müs/" (main.go:481-485), under
which no stored key matches, and returns no items with more=false. -/
theorem claim4_counterexample :
    listKeys wKeys "müs".data [] "ic/söng4.mp3".data true 1 =
      ([⟨"ic".data, false⟩], true)
    ∧ ServerList wKeys "müs".data [] "ic/söng4.mp3".data true 1 = ([], false) := by
  refine ⟨by decide, by decide⟩

end Spec2Proof
